import Mathlib

/-!
Verification of the playstv-recovery discovery/download pipeline.

Shallow embedding of src/playstv_recovery/cache.py, downloader.py, scraper.py,
cli.py and stats.py.  Pure fragments become Lean functions on lists and
strings; the asyncio producer/worker pipeline becomes an explicit small-step
transition system whose micro-steps are the scheduling points of the source.
-/

set_option autoImplicit false

namespace PlaysTV

/-! ### Python string primitives -/

/-- Python `s.split(sep)` for a one-character separator, on character lists.
The result always has at least one (possibly empty) piece. -/
def pySplit (c : Char) : List Char → List (List Char)
  | [] => [[]]
  | x :: xs =>
    if x = c then [] :: pySplit c xs
    else
      match pySplit c xs with
      | [] => [[x]]
      | h :: t => (x :: h) :: t

/-- Python whitespace as stripped by `str.strip()` (ASCII set; the identifiers
handled by the program are URLs, which contain none of these). -/
def isPyWS (c : Char) : Bool :=
  c = ' ' || c = '\t' || c = '\n' || c = '\r' || c = '\x0b' || c = '\x0c'

/-- Python `line.strip()` on character lists. -/
def pyStripL (l : List Char) : List Char :=
  ((l.dropWhile isPyWS).reverse.dropWhile isPyWS).reverse

/-- The last `c`-separated segment of a character list, characterized from the
right: the longest `c`-free suffix. -/
def lastSegment (c : Char) (l : List Char) : List Char :=
  (l.reverse.takeWhile (fun x => x ≠ c)).reverse

/-! ### cache.py -/

/-- Header written by `Cache._initialize_cache` when the backing file does not
exist yet. -/
def HEADER : String :=
  "# This is a cache file for playstv-recovery. Video URLs that are on this list will not be re-downloaded.\n# Freely delete this file or remove entries to re-download videos.\n"

/-- State of a `Cache` object: the durable backing-file content plus the
in-memory set `_urls` (a list read up to membership). -/
structure CacheState where
  file : String
  urls : List String
deriving DecidableEq

/-- Python `line.startswith("#")`. -/
def startsHash : List Char → Bool
  | '#' :: _ => true
  | _ => false

/-- `Cache._load_urls`: the stripped, non-blank, non-comment lines of the
file content.  The blank test strips the line; the comment test looks at the
unstripped line, exactly as in the source. -/
def Cache.load_urls (content : String) : List String :=
  ((pySplit '\n' content.data).filter
      (fun l => !(pyStripL l).isEmpty && !startsHash l)).map
    (fun l => String.mk (pyStripL l))

/-- `Cache.add`: if the url is already in the in-memory set, a no-op returning
false; otherwise the line is appended to the file and the url inserted into
the set, returning true. -/
def Cache.add (s : CacheState) (url : String) : Bool × CacheState :=
  if url ∈ s.urls then (false, s)
  else (true, { file := s.file ++ url ++ "\n", urls := url :: s.urls })

/-- The intermediate states of one `Cache.add` call in program order: after
the membership check, after the (flushed) file append, after the in-memory
insert.  A crash can leave the system at any element; only `file` is durable
and is what `Cache._load_urls` sees at the next startup. -/
def Cache.addTrace (s : CacheState) (url : String) : List CacheState :=
  if url ∈ s.urls then [s]
  else [s,
        { s with file := s.file ++ url ++ "\n" },
        { file := s.file ++ url ++ "\n", urls := url :: s.urls }]

/-- `Cache.__contains__`: an in-memory read, never touching the file. -/
def Cache.mem (s : CacheState) (url : String) : Bool :=
  decide (url ∈ s.urls)

/-- A well-formed identifier for cache purposes: non-empty, free of Python
whitespace (so a line round-trips through `strip`), and not a comment line.
Every identifier the pipeline produces is a URL and satisfies this. -/
def GoodId (u : String) : Prop :=
  u ≠ "" ∧ (∀ c ∈ u.data, isPyWS c = false) ∧ ¬ startsHash u.data

instance (u : String) : Decidable (GoodId u) := by
  unfold GoodId; infer_instance

/-- A well-formed backing file: empty or newline-terminated.  The initializer
writes the newline-terminated HEADER and every append ends in a newline, so
every file the program writes satisfies this. -/
def GoodFile (f : String) : Prop :=
  f = "" ∨ ∃ g : List Char, f.data = g ++ ['\n']

/-! ### downloader.py -/

/-- An HTML tag, as far as `extract_video_source` inspects one: a tag name and
its attributes. -/
structure Tag where
  name : String
  attrs : List (String × String)
deriving DecidableEq

/-- Attribute lookup, `tag.get(key)`: first binding wins, `none` when the
attribute is absent. -/
def Tag.attr (t : Tag) (k : String) : Option String :=
  (t.attrs.find? (fun p => p.1 == k)).map Prod.snd

/-- A source tag that `extract_video_source` accepts: named source, with the
720 resolution marker and a non-empty (truthy) src attribute. -/
def Qualifying720 (t : Tag) : Prop :=
  t.name = "source" ∧ t.attr ("res") = some ("720") ∧
    ∃ s, t.attr ("src") = some s ∧ s ≠ ""

instance (t : Tag) : Decidable (Qualifying720 t) := by
  unfold Qualifying720; infer_instance

/-- `extract_video_source`: find the first source tag carrying res 720 and
return `https:` plus its src.  `none` models the raised ValueError: no such
tag, or the first such tag has a missing or empty (falsy) src. -/
def extract_video_source (page : List Tag) : Option String :=
  match page.find? (fun t => t.name == "source" && t.attr ("res") == some ("720")) with
  | none => none
  | some t =>
    match t.attr ("src") with
    | none => none
    | some s => if s = "" then none else some ("https:" ++ s)

/-- `url_to_filename`: the last two slash-separated pieces of the url joined
as last_secondToLast.mp4.  `none` models the IndexError raised by
`parts[-2]` when the split yields fewer than two pieces. -/
def url_to_filename (url : String) : Option String :=
  match (pySplit '/' url.data).reverse with
  | p1 :: p2 :: _ => some (String.mk (p1 ++ '_' :: p2) ++ ".mp4")
  | _ => none

/-- The file path `DownloadClient.download` targets for an identifier,
computed from the save directory and the filename before any network
operation. -/
def DownloadClient.downloadPath (savePath : String) (url : String) : Option String :=
  (url_to_filename url).map (fun f => savePath ++ "/" ++ f)

/-! ### scraper.py -/

def WAYBACK_URL : String := "https://web.archive.org/web/"

/-- Maximum number of times the scraper will attempt to scroll to load more
videos. -/
def MAX_SCROLL_ATTEMPTS : Nat := 50

/-- Maximum number of consecutive scroll attempts that yield no new videos
before stopping. -/
def MAX_FAIL_ATTEMPTS : Nat := 10

/-- A discovery event yielded by `VideoLinkScraper.scrape_urls`. -/
inductive ScrapeEvent
  | totalFound (count : Nat)
  | urlFound (url : String)
deriving DecidableEq

/-- The identifier of a url event, and nothing for the total event. -/
def ScrapeEvent.urlOf : ScrapeEvent → Option String
  | .urlFound u => some u
  | .totalFound _ => none

/-- The identifiers carried by a list of discovery events. -/
def eventUrls (events : List ScrapeEvent) : List String :=
  events.filterMap ScrapeEvent.urlOf

/-- Normalization applied to each rendered href: strip query parameters and
prepend the Wayback prefix. -/
def normalizeHref (href : String) : String :=
  WAYBACK_URL ++ String.mk (href.data.takeWhile (fun c => c ≠ '?'))

/-- `VideoLinkScraper._extract_new_video_urls`: drop falsy hrefs, normalize,
and keep those not in the seen set.  The seen set is not consulted between
two occurrences inside the same read, exactly as in the source. -/
def VideoLinkScraper.extract_new_video_urls (seen : List String) (hrefs : List String) :
    List String :=
  ((hrefs.filter (fun h => !decide (h = ""))).map normalizeHref).filter
    (fun url => !decide (url ∈ seen))

/-- `VideoLinkScraper._should_stop_scrolling`. -/
def VideoLinkScraper.should_stop_scrolling (seenCount targetCount fails : Nat) : Bool :=
  (decide (0 < targetCount) && decide (targetCount ≤ seenCount))
    || decide (MAX_FAIL_ATTEMPTS ≤ fails)

/-- Insert each url of the second list into the seen set (Python
`seen_urls.update(new_urls)`: duplicates collapse). -/
def insertAll (seen : List String) (urls : List String) : List String :=
  urls.foldl (fun s u => if u ∈ s then s else u :: s) seen

/-- The scroll loop of `VideoLinkScraper.scrape_urls`.  `render t` is the link
list the browsing collaborator renders at scroll attempt `t`.  Returns the
urls emitted in order, the per-attempt counts of new urls (one entry per
scroll attempt actually performed), and, when the loop exited through the
stop check, the seen-set size and consecutive-failure counter it saw. -/
def VideoLinkScraper.scrapeLoop (render : Nat → List String) (target : Nat) :
    Nat → Nat → List String → Nat → List String × List Nat × Option (Nat × Nat)
  | 0, _, _, _ => ([], [], none)
  | fuel + 1, attempt, seen, fails =>
    let newUrls := VideoLinkScraper.extract_new_video_urls seen (render attempt)
    let seen' := insertAll seen newUrls
    if VideoLinkScraper.should_stop_scrolling seen'.length target fails then
      (newUrls, [newUrls.length], some (seen'.length, fails))
    else
      let r := VideoLinkScraper.scrapeLoop render target fuel (attempt + 1) seen'
        (if newUrls.isEmpty then fails + 1 else 0)
      (newUrls ++ r.1, newUrls.length :: r.2.1, r.2.2)

/-- `VideoLinkScraper.scrape_urls`: read the advisory total, emit it, then run
the scroll loop for up to `MAX_SCROLL_ATTEMPTS` attempts starting at attempt
one with empty seen set and zero consecutive failures. -/
def VideoLinkScraper.scrape_urls (render : Nat → List String) (target : Nat) :
    List ScrapeEvent × List Nat × Option (Nat × Nat) :=
  let r := VideoLinkScraper.scrapeLoop render target MAX_SCROLL_ATTEMPTS 1 [] 0
  (ScrapeEvent.totalFound target :: r.1.map ScrapeEvent.urlFound, r.2.1, r.2.2)

/-- Concrete five-item listing used to witness the target-reached scenario. -/
def sampleHrefs5 : List String := ["a", "b", "c", "d", "e"]

/-- Concrete twelve-item listing used for the stagnation scenario. -/
def sampleHrefs12 : List String :=
  ["a", "b", "c", "d", "e", "f", "g", "h", "i", "j", "k", "l"]

/-! ### cli.py — the producer / queue / worker pipeline

The asyncio pipeline of `run`, `produce_urls`, `consume_queue` and
`download_worker` is embedded as a small-step transition system.  Each step
is one of the scheduling units of the source: the producer counting one
discovered identifier (`stats.increment_found`), the producer enqueueing it
(`queue.put`), the producer enqueueing the terminal sentinel, a worker
dequeueing an item, a worker processing a dequeued url to completion
(`download_worker` catches every exception, so processing is total), a worker
acknowledging and re-enqueueing the sentinel and exiting.  `puts`, `dones`
and `unfinished` mirror the put / `task_done` accounting of
`asyncio.Queue.join`. -/

def NUM_WORKERS : Nat := 20

namespace Pipeline

/-- An item travelling through the queue: a url, or the terminal sentinel
(`None` in the source). -/
inductive QItem
  | url (u : String)
  | sentinel
deriving DecidableEq

def QItem.isUrl : QItem → Bool
  | .url _ => true
  | .sentinel => false

def QItem.isSent : QItem → Bool
  | .url _ => false
  | .sentinel => true

/-- The urls among a queue's items. -/
def urlCount (q : List QItem) : Nat := (q.filter QItem.isUrl).length

/-- Where a worker coroutine stands in its `consume_queue` loop. -/
inductive WPhase
  | running
  | holding (u : String)
  | exiting
  | done
deriving DecidableEq

/-- One worker task: its control point, how many times it dequeued the
sentinel, and how many times it re-enqueued it. -/
structure Worker where
  phase : WPhase
  seenSent : Nat
  rePuts : Nat
deriving DecidableEq

def Worker.isRunning (w : Worker) : Bool := w.phase = WPhase.running

def Worker.isHolding (w : Worker) : Bool :=
  match w.phase with
  | .holding _ => true
  | _ => false

def Worker.isExiting (w : Worker) : Bool := w.phase = WPhase.exiting

def Worker.isDone (w : Worker) : Bool := w.phase = WPhase.done

/-- Where the producer stands in `produce_urls`: still draining discovery
events, between counting an identifier and enqueueing it (the two
cross-thread scheduling units are issued in this order), or finished (the
sentinel enqueued). -/
inductive ProdPhase
  | emitting (pending : List ScrapeEvent)
  | counted (u : String) (pending : List ScrapeEvent)
  | done
deriving DecidableEq

/-- One when the producer has counted an identifier not yet enqueued. -/
def countedFlag : ProdPhase → Nat
  | .counted _ _ => 1
  | _ => 0

/-- The `DownloadStats` counters. -/
structure Stats where
  total : Nat
  found : Nat
  completed : Nat
  skipped : Nat
  failed : Nat
deriving DecidableEq

/-- A network request issued by `DownloadClient`, tagged with the item
identifier it was issued for: the video-page fetch, or the media stream. -/
inductive NetOp
  | pageFetch (item : String)
  | mediaStream (item : String) (media : String)
deriving DecidableEq

/-- The identifier a network operation was issued for. -/
def NetOp.item : NetOp → String
  | .pageFetch u => u
  | .mediaStream u _ => u

/-- The external world a run executes against: the cache contents loaded at
startup, the page each identifier's fetch returns, and whether the page fetch
and the media stream succeed at the HTTP level. -/
structure Env where
  initCache : List String
  pageOf : String → List Tag
  fetchOk : String → Bool
  streamOk : String → Bool

/-- Result of one `download_worker` call on a dequeued url. -/
structure ProcResult where
  cache : List String
  stats : Stats
  newOps : List NetOp
  newFiles : List String
deriving DecidableEq

/-- `download_worker` on one url, run to completion.  The cache check comes
first and the skip path touches no network.  Otherwise `client.download`
computes the target filename (an IndexError there is caught like every other
exception and counted failed), fetches the page, extracts the 720p source,
streams the media, and on full success the url is cached and counted
completed; every failure is caught and counted failed. -/
def processUrl (env : Env) (cache : List String) (st : Stats) (u : String) : ProcResult :=
  if u ∈ cache then
    ⟨cache, { st with skipped := st.skipped + 1 }, [], []⟩
  else
    match url_to_filename u with
    | none => ⟨cache, { st with failed := st.failed + 1 }, [], []⟩
    | some fname =>
      if env.fetchOk u then
        match extract_video_source (env.pageOf u) with
        | some media =>
          if env.streamOk u then
            ⟨if u ∈ cache then cache else u :: cache,
             { st with completed := st.completed + 1 },
             [NetOp.pageFetch u, NetOp.mediaStream u media], [fname]⟩
          else
            ⟨cache, { st with failed := st.failed + 1 },
             [NetOp.pageFetch u, NetOp.mediaStream u media], []⟩
        | none =>
          ⟨cache, { st with failed := st.failed + 1 }, [NetOp.pageFetch u], []⟩
      else
        ⟨cache, { st with failed := st.failed + 1 }, [NetOp.pageFetch u], []⟩

/-- A pipeline configuration. -/
structure State where
  prod : ProdPhase
  queue : List QItem
  workers : List Worker
  stats : Stats
  cache : List String
  netOps : List NetOp
  files : List String
  puts : Nat
  dones : Nat
  unfinished : Nat
  joinFired : Bool
deriving DecidableEq

/-- Initial configuration of `run`: producer holding the discovery event
sequence, empty queue, `k` idle workers, zeroed stats, cache as loaded. -/
def init (env : Env) (events : List ScrapeEvent) (k : Nat) : State :=
  { prod := .emitting events
    queue := []
    workers := List.replicate k ⟨.running, 0, 0⟩
    stats := ⟨0, 0, 0, 0, 0⟩
    cache := env.initCache
    netOps := []
    files := []
    puts := 0
    dones := 0
    unfinished := 0
    joinFired := false }

/-- The small-step relation.  Each task_done that brings the unfinished count
to zero after the producer has finished sets `joinFired`: asyncio's
`Queue.join`, already subscribed to the finished event by then (the
coordinator awaits the producer first; with at least two workers the
coordinator reaches `queue.join` before the last sentinel hand-off), is woken
by that transient zero even though the subsequent sentinel re-enqueue raises
the count again. -/
inductive Step (env : Env) : State → State → Prop
  | pTotal (s : State) (n : Nat) (rest : List ScrapeEvent) :
      s.prod = .emitting (ScrapeEvent.totalFound n :: rest) →
      Step env s { s with
        prod := .emitting rest
        stats := { s.stats with total := n } }
  | pFound (s : State) (u : String) (rest : List ScrapeEvent) :
      s.prod = .emitting (ScrapeEvent.urlFound u :: rest) →
      Step env s { s with
        prod := .counted u rest
        stats := { s.stats with found := s.stats.found + 1 } }
  | pPut (s : State) (u : String) (rest : List ScrapeEvent) :
      s.prod = .counted u rest →
      Step env s { s with
        prod := .emitting rest
        queue := s.queue ++ [QItem.url u]
        puts := s.puts + 1
        unfinished := s.unfinished + 1 }
  | pSent (s : State) :
      s.prod = .emitting [] →
      Step env s { s with
        prod := .done
        queue := s.queue ++ [QItem.sentinel]
        puts := s.puts + 1
        unfinished := s.unfinished + 1 }
  | wGet (s : State) (i : Nat) (w : Worker) (u : String) (q : List QItem) :
      s.workers[i]? = some w →
      w.phase = .running →
      s.queue = QItem.url u :: q →
      Step env s { s with
        queue := q
        workers := s.workers.set i { w with phase := .holding u } }
  | wProc (s : State) (i : Nat) (w : Worker) (u : String) :
      s.workers[i]? = some w →
      w.phase = .holding u →
      Step env s { s with
        workers := s.workers.set i { w with phase := .running }
        cache := (processUrl env s.cache s.stats u).cache
        stats := (processUrl env s.cache s.stats u).stats
        netOps := s.netOps ++ (processUrl env s.cache s.stats u).newOps
        files := s.files ++ (processUrl env s.cache s.stats u).newFiles
        dones := s.dones + 1
        unfinished := s.unfinished - 1
        joinFired := s.joinFired
          || (decide (s.prod = ProdPhase.done) && decide (s.unfinished - 1 = 0)) }
  | wSentGet (s : State) (i : Nat) (w : Worker) (q : List QItem) :
      s.workers[i]? = some w →
      w.phase = .running →
      s.queue = QItem.sentinel :: q →
      Step env s { s with
        queue := q
        workers := s.workers.set i
          { w with phase := .exiting, seenSent := w.seenSent + 1 }
        dones := s.dones + 1
        unfinished := s.unfinished - 1
        joinFired := s.joinFired
          || (decide (s.prod = ProdPhase.done) && decide (s.unfinished - 1 = 0)) }
  | wSentPut (s : State) (i : Nat) (w : Worker) :
      s.workers[i]? = some w →
      w.phase = .exiting →
      Step env s { s with
        queue := s.queue ++ [QItem.sentinel]
        workers := s.workers.set i
          { w with phase := .done, rePuts := w.rePuts + 1 }
        puts := s.puts + 1
        unfinished := s.unfinished + 1 }

/-- Reachability from the initial configuration. -/
def Reachable (env : Env) (events : List ScrapeEvent) (k : Nat) (s : State) : Prop :=
  Relation.ReflTransGen (Step env) (init env events k) s

/-- No step applies: the run has completed. -/
def Stuck (env : Env) (s : State) : Prop :=
  ∀ s', ¬ Step env s s'

/-- Remaining producer micro-steps: two per pending url event, one per pending
total event, one for the sentinel. -/
def prodRemaining : ProdPhase → Nat
  | .emitting l => (l.map (fun e => match e with
      | ScrapeEvent.urlFound _ => 2
      | ScrapeEvent.totalFound _ => 1)).sum + 1
  | .counted _ l => (l.map (fun e => match e with
      | ScrapeEvent.urlFound _ => 2
      | ScrapeEvent.totalFound _ => 1)).sum + 2
  | .done => 0

/-- Weight of one worker by control point. -/
def workerWeight (w : Worker) : Nat :=
  match w.phase with
  | .running => 2
  | .holding _ => 3
  | .exiting => 1
  | .done => 0

/-- Termination measure: strictly decreases on every step, under every
interleaving. -/
def measure (s : State) : Nat :=
  4 * prodRemaining s.prod + 3 * urlCount s.queue
    + (s.workers.map workerWeight).sum

/-- The run invariant: every field holds in the initial configuration and is
preserved by every step.  `unf` and `acct` mirror the `asyncio.Queue`
unfinished-task accounting; `statsInv` is the stats ledger behind claim C3;
`lastExit` and `allDone` pin down the terminal shape of a run; `opsNew` and
`cachedRun` support claim C8. -/
structure Inv (env : Env) (events : List ScrapeEvent) (k : Nat) (s : State) : Prop where
  wlen : s.workers.length = k
  unf : s.unfinished = s.queue.length + s.workers.countP Worker.isHolding
  acct : s.puts = s.dones + s.unfinished
  noSentEarly : s.prod ≠ ProdPhase.done →
    s.queue.countP QItem.isSent = 0 ∧ s.workers.countP Worker.isExiting = 0 ∧
      s.workers.countP Worker.isDone = 0
  sentOne : s.prod = ProdPhase.done →
    s.queue.countP QItem.isSent + s.workers.countP Worker.isExiting = 1
  sentLast : ∀ pre post, s.queue = pre ++ QItem.sentinel :: post → post = []
  counters : ∀ w ∈ s.workers,
    w.seenSent = (if w.phase = WPhase.exiting ∨ w.phase = WPhase.done then 1 else 0) ∧
    w.rePuts = (if w.phase = WPhase.done then 1 else 0)
  statsInv : s.stats.found = s.stats.completed + s.stats.skipped + s.stats.failed
    + s.queue.countP QItem.isUrl + s.workers.countP Worker.isHolding + countedFlag s.prod
  cacheMono : ∀ u ∈ env.initCache, u ∈ s.cache
  opsNew : ∀ op ∈ s.netOps, NetOp.item op ∉ env.initCache
  lastExit : s.workers.countP Worker.isExiting = 1 →
    s.workers.countP Worker.isDone + 1 = k → s.queue = [] ∧ s.joinFired = true
  allDone : s.workers.countP Worker.isDone = k → 1 ≤ k →
    s.queue = [QItem.sentinel] ∧ s.joinFired = true
  queueSrc : ∀ u, QItem.url u ∈ s.queue → u ∈ eventUrls events
  holdSrc : ∀ w ∈ s.workers, ∀ u, w.phase = WPhase.holding u → u ∈ eventUrls events
  prodSrcE : ∀ l, s.prod = ProdPhase.emitting l → ∀ u ∈ eventUrls l, u ∈ eventUrls events
  prodSrcC : ∀ u l, s.prod = ProdPhase.counted u l →
    u ∈ eventUrls events ∧ ∀ x ∈ eventUrls l, x ∈ eventUrls events
  cachedRun : (∀ u ∈ eventUrls events, u ∈ env.initCache) →
    s.netOps = [] ∧ s.stats.completed = 0 ∧ s.stats.failed = 0

/-- Environment for concrete runs: empty cache, blank pages, failing
network. -/
def envTrivial : Env :=
  { initCache := []
    pageOf := fun _ => []
    fetchOk := fun _ => false
    streamOk := fun _ => false }

/-- Environment whose pages carry a source tag at the wrong resolution and
no 720p source at all. -/
def env480 : Env :=
  { initCache := []
    pageOf := fun _ => [{ name := "source", attrs := [("res", "480"), ("src", "//cdn/x")] }]
    fetchOk := fun _ => true
    streamOk := fun _ => true }

/-- Environment against which the single discovered identifier was already
downloaded in a previous run. -/
def envCached : Env :=
  { initCache := ["https://a/b"]
    pageOf := fun _ => []
    fetchOk := fun _ => false
    streamOk := fun _ => false }

/-- A one-identifier discovery sequence. -/
def eventsOne : List ScrapeEvent := [ScrapeEvent.urlFound ("https://a/b")]

/-- Terminal configuration of the two-worker run with no discovered urls:
three puts (producer sentinel and two re-enqueues), two task_done calls. -/
def finalNoUrls : State :=
  { prod := .done
    queue := [QItem.sentinel]
    workers := [⟨.done, 1, 1⟩, ⟨.done, 1, 1⟩]
    stats := ⟨0, 0, 0, 0, 0⟩
    cache := []
    netOps := []
    files := []
    puts := 3
    dones := 2
    unfinished := 1
    joinFired := true }

/-- Terminal configuration of the one-worker run over `eventsOne` against
`envTrivial`: the single download fails at the page fetch. -/
def finalOneFail : State :=
  { prod := .done
    queue := [QItem.sentinel]
    workers := [⟨.done, 1, 1⟩]
    stats := ⟨0, 1, 0, 0, 1⟩
    cache := []
    netOps := [NetOp.pageFetch ("https://a/b")]
    files := []
    puts := 3
    dones := 2
    unfinished := 1
    joinFired := true }

/-- Terminal configuration of the one-worker run over `eventsOne` against
`envCached`: the identifier is skipped without any network operation. -/
def finalOneSkip : State :=
  { prod := .done
    queue := [QItem.sentinel]
    workers := [⟨.done, 1, 1⟩]
    stats := ⟨0, 1, 0, 1, 0⟩
    cache := ["https://a/b"]
    netOps := []
    files := []
    puts := 3
    dones := 2
    unfinished := 1
    joinFired := true }

end Pipeline

/-! ## Lemmas about the Python string primitives -/

theorem pySplit_cons_sep (c : Char) (xs : List Char) :
    pySplit c (c :: xs) = [] :: pySplit c xs := by
  simp [pySplit]

theorem pySplit_ne_nil (c : Char) (l : List Char) : pySplit c l ≠ [] := by
  induction l with
  | nil => simp [pySplit]
  | cons x xs ih =>
    by_cases hx : x = c
    · subst hx; simp [pySplit]
    · simp only [pySplit, if_neg hx]
      rcases h : pySplit c xs with _ | ⟨a, t⟩
      · simp
      · simp

theorem pySplit_cons_ne (c x : Char) (xs : List Char) (h : x ≠ c) :
    pySplit c (x :: xs) = (x :: (pySplit c xs).headD []) :: (pySplit c xs).tail := by
  rcases hs : pySplit c xs with _ | ⟨a, t⟩
  · exact absurd hs (pySplit_ne_nil c xs)
  · simp [pySplit, h, hs]

theorem pySplit_append_sep (c : Char) (ys : List Char) :
    pySplit c (ys ++ [c]) = pySplit c ys ++ [[]] := by
  induction ys with
  | nil => simp [pySplit]
  | cons y ys ih =>
    by_cases hy : y = c
    · subst hy
      rw [List.cons_append, pySplit_cons_sep, pySplit_cons_sep, ih]
      simp
    · rw [List.cons_append, pySplit_cons_ne c y _ hy, pySplit_cons_ne c y ys hy, ih]
      rcases hs : pySplit c ys with _ | ⟨a, t⟩
      · exact absurd hs (pySplit_ne_nil c ys)
      · simp

theorem pySplit_no_sep (c : Char) (u : List Char) (h : ∀ x ∈ u, x ≠ c) :
    pySplit c u = [u] := by
  induction u with
  | nil => rfl
  | cons x xs ih =>
    have hx : x ≠ c := h x (by simp)
    rw [pySplit_cons_ne c x xs hx, ih (fun y hy => h y (by simp [hy]))]
    simp

theorem pySplit_append_sep_free (c : Char) (a b : List Char) (hb : ∀ x ∈ b, x ≠ c) :
    pySplit c (a ++ c :: b) = pySplit c a ++ [b] := by
  induction a with
  | nil => simp [pySplit, pySplit_cons_sep, pySplit_no_sep c b hb]
  | cons x a ih =>
    by_cases hx : x = c
    · subst hx
      rw [List.cons_append, pySplit_cons_sep, pySplit_cons_sep, ih]
      simp
    · rw [List.cons_append, pySplit_cons_ne c x _ hx, ih, pySplit_cons_ne c x a hx]
      rcases hs : pySplit c a with _ | ⟨h1, t1⟩
      · exact absurd hs (pySplit_ne_nil c a)
      · simp

theorem two_le_pySplit_length_iff (c : Char) (l : List Char) :
    2 ≤ (pySplit c l).length ↔ c ∈ l := by
  induction l with
  | nil => simp [pySplit]
  | cons x xs ih =>
    by_cases hx : x = c
    · rw [hx, pySplit_cons_sep]
      rcases hs : pySplit c xs with _ | ⟨a, t⟩
      · exact absurd hs (pySplit_ne_nil c xs)
      · simp
    · rw [pySplit_cons_ne c x xs hx]
      rcases hs : pySplit c xs with _ | ⟨a, t⟩
      · exact absurd hs (pySplit_ne_nil c xs)
      · rw [hs] at ih
        simp only [List.headD_cons, List.tail_cons, List.length_cons] at ih ⊢
        constructor
        · intro hlen
          have : c ∈ xs := ih.mp (by omega)
          exact List.mem_cons_of_mem x this
        · intro hmem
          rcases List.mem_cons.mp hmem with h1 | h1
          · exact absurd h1.symm hx
          · have := ih.mpr h1
            omega

theorem takeWhile_append_stop (p : Char → Bool) (u : List Char) (a : Char)
    (v : List Char) (ha : p a = false) :
    (u ++ a :: v).takeWhile p = u.takeWhile p := by
  induction u with
  | nil => simp [List.takeWhile_cons, ha]
  | cons x xs ih =>
    by_cases hx : p x
    · simp [List.takeWhile_cons, hx, ih]
    · simp [List.takeWhile_cons, hx]

theorem takeWhile_append_mem_stop (p : Char → Bool) (u v : List Char)
    (h : ∃ a ∈ u, p a = false) :
    (u ++ v).takeWhile p = u.takeWhile p := by
  induction u with
  | nil => simp at h
  | cons x xs ih =>
    by_cases hx : p x
    · rcases h with ⟨a, ha, hpa⟩
      rcases List.mem_cons.mp ha with h1 | h1
      · subst h1; exact absurd hx (by simp [hpa])
      · simp [List.takeWhile_cons, hx, ih ⟨a, h1, hpa⟩]
    · simp [List.takeWhile_cons, hx]

theorem takeWhile_all (p : Char → Bool) (l : List Char) (h : ∀ x ∈ l, p x = true) :
    l.takeWhile p = l :=
  List.takeWhile_eq_self_iff.mpr h

theorem lastSegment_cons_sep (c : Char) (xs : List Char) :
    lastSegment c (c :: xs) = lastSegment c xs := by
  unfold lastSegment
  rw [List.reverse_cons]
  rw [show (xs.reverse ++ [c]) = xs.reverse ++ c :: [] from rfl]
  rw [takeWhile_append_stop _ _ c [] (by simp)]

theorem lastSegment_no_sep (c : Char) (l : List Char) (h : ∀ x ∈ l, x ≠ c) :
    lastSegment c l = l := by
  unfold lastSegment
  rw [takeWhile_all _ _ (fun x hx => by
    simpa using h x (List.mem_reverse.mp hx))]
  exact List.reverse_reverse l

theorem lastSegment_cons_of_mem (c x : Char) (xs : List Char) (h : c ∈ xs) :
    lastSegment c (x :: xs) = lastSegment c xs := by
  unfold lastSegment
  rw [List.reverse_cons,
    takeWhile_append_mem_stop _ _ [x] ⟨c, List.mem_reverse.mpr h, by simp⟩]

theorem getLastD_pySplit (c : Char) (l : List Char) :
    (pySplit c l).getLastD [] = lastSegment c l := by
  induction l with
  | nil => rfl
  | cons x xs ih =>
    by_cases hx : x = c
    · rw [hx, pySplit_cons_sep, lastSegment_cons_sep]
      rcases hs : pySplit c xs with _ | ⟨a, t⟩
      · exact absurd hs (pySplit_ne_nil c xs)
      · rw [hs] at ih
        rw [List.getLastD_cons]
        exact ih
    · rw [pySplit_cons_ne c x xs hx]
      rcases hs : pySplit c xs with _ | ⟨a, t⟩
      · exact absurd hs (pySplit_ne_nil c xs)
      · rw [hs] at ih
        rcases t with _ | ⟨b, t'⟩
        · -- xs has no separator: its split is a single piece equal to xs
          have hns : ∀ y ∈ xs, y ≠ c := by
            intro y hy hyc
            rw [hyc] at hy
            have h2 := (two_le_pySplit_length_iff c xs).mpr hy
            rw [hs] at h2
            simp at h2
          have hxs : a = xs := by
            have := pySplit_no_sep c xs hns
            rw [hs] at this
            simpa using this
          rw [hxs]
          rw [lastSegment_no_sep c (x :: xs)
            (fun y hy => by
              rcases List.mem_cons.mp hy with h1 | h1
              · exact h1 ▸ hx
              · exact hns y h1)]
          simp
        · -- xs contains the separator
          have hmem : c ∈ xs := by
            apply (two_le_pySplit_length_iff c xs).mp
            rw [hs]; simp
          rw [lastSegment_cons_of_mem c x xs hmem, ← ih]
          simp [List.getLastD_cons]

/-! ## Theorem for claim C10 -/

/-- C10.  `url_to_filename` is total and deterministic exactly on identifiers
containing at least one slash: for such a url it returns the last segment,
an underscore, the second-to-last segment and the mp4 suffix, and
`DownloadClient.download` of the same identifier always targets the same
save-path-relative file; for a slash-free url the `parts[-2]` access is out
of bounds and the function raises IndexError (modelled as `none`). -/
theorem C10_url_to_filename :
    (∀ url : String, '/' ∉ url.data → url_to_filename url = none) ∧
    (∀ url : String, '/' ∈ url.data → (url_to_filename url).isSome = true) ∧
    (∀ a b : List Char, (∀ x ∈ b, x ≠ '/') →
      url_to_filename (String.mk (a ++ '/' :: b))
        = some (String.mk (b ++ '_' :: lastSegment '/' a) ++ ".mp4")) ∧
    (∀ savePath url f, url_to_filename url = some f →
      DownloadClient.downloadPath savePath url = some (savePath ++ "/" ++ f)) := by
  refine ⟨?_, ?_, ?_, ?_⟩
  · intro url hnot
    unfold url_to_filename
    rcases hs : (pySplit '/' url.data).reverse with _ | ⟨p1, rest⟩
    · rfl
    · rcases rest with _ | ⟨p2, rest'⟩
      · rfl
      · exfalso
        apply hnot
        apply (two_le_pySplit_length_iff '/' url.data).mp
        rw [← List.length_reverse, hs]
        simp
  · intro url hmem
    unfold url_to_filename
    have hlen : 2 ≤ (pySplit '/' url.data).length :=
      (two_le_pySplit_length_iff '/' url.data).mpr hmem
    rcases hs : (pySplit '/' url.data).reverse with _ | ⟨p1, rest⟩
    · exact absurd (List.reverse_eq_nil_iff.mp hs) (pySplit_ne_nil '/' url.data)
    · rcases rest with _ | ⟨p2, rest'⟩
      · exfalso
        rw [← List.length_reverse, hs] at hlen
        simp at hlen
      · rfl
  · intro a b hb
    unfold url_to_filename
    have hdata : (String.mk (a ++ '/' :: b)).data = a ++ '/' :: b := rfl
    rw [hdata, pySplit_append_sep_free '/' a b hb]
    have hne := pySplit_ne_nil '/' a
    have hlast : (pySplit '/' a).getLast hne = lastSegment '/' a := by
      have h1 := getLastD_pySplit '/' a
      rw [List.getLastD_eq_getLast?, List.getLast?_eq_getLast _ hne] at h1
      simpa using h1
    rw [show pySplit '/' a ++ [b]
        = ((pySplit '/' a).dropLast ++ [(pySplit '/' a).getLast hne]) ++ [b] from by
      rw [List.dropLast_append_getLast hne]]
    simp [List.reverse_append, hlast]
  · intro savePath url f hf
    unfold DownloadClient.downloadPath
    rw [hf]
    rfl

/-- C10 witness: the theorem applied at concrete identifiers of each shape. -/
theorem C10_url_to_filename_witness :
    url_to_filename ("abc") = none ∧
    (url_to_filename ("x/y")).isSome = true ∧
    url_to_filename (String.mk (("https://a").data ++ '/' :: ("b").data))
      = some (String.mk (("b").data ++ '_' :: lastSegment '/' (("https://a").data)) ++ ".mp4") ∧
    DownloadClient.downloadPath ("plays-tv-videos/alice") ("https://a/b")
      = some ("plays-tv-videos/alice" ++ "/" ++ "b_a.mp4") :=
  ⟨C10_url_to_filename.1 ("abc") (by decide),
   C10_url_to_filename.2.1 ("x/y") (by decide),
   C10_url_to_filename.2.2.1 (("https://a").data) (("b").data) (by decide),
   C10_url_to_filename.2.2.2 ("plays-tv-videos/alice") ("https://a/b") ("b_a.mp4") (by decide)⟩

/-! ## Lemmas and theorems about the cache -/

theorem mk_data (s : String) : String.mk s.data = s := rfl

theorem dropWhile_all_false (p : Char → Bool) (l : List Char)
    (h : ∀ x ∈ l, p x = false) : l.dropWhile p = l := by
  cases l with
  | nil => rfl
  | cons x xs =>
    rw [List.dropWhile_cons, if_neg (by simp [h x (by simp)])]

theorem pyStripL_id (l : List Char) (h : ∀ x ∈ l, isPyWS x = false) :
    pyStripL l = l := by
  unfold pyStripL
  rw [dropWhile_all_false isPyWS l h,
    dropWhile_all_false isPyWS l.reverse
      (fun x hx => h x (List.mem_reverse.mp hx)),
    List.reverse_reverse]

theorem newline_not_mem_of_goodId (u : String) (h : GoodId u) : '\n' ∉ u.data := by
  intro hmem
  have := h.2.1 '\n' hmem
  simp [isPyWS] at this

/-- A well-formed identifier appended as a line to a well-formed file is
recovered by `Cache._load_urls`. -/
theorem mem_load_urls_append (f : String) (u : String)
    (hu : GoodId u) (hf : GoodFile f) :
    u ∈ Cache.load_urls (f ++ u ++ "\n") := by
  have hnl : ∀ x ∈ u.data, x ≠ '\n' := by
    intro x hx hc
    exact newline_not_mem_of_goodId u hu (hc ▸ hx)
  have hdata : (f ++ u ++ "\n").data = f.data ++ u.data ++ ['\n'] := by
    simp [String.data_append]
  have hlines : u.data ∈ pySplit '\n' (f ++ u ++ "\n").data := by
    rw [hdata]
    rcases hf with hf0 | ⟨g, hg⟩
    · rw [hf0]
      simp only [String.data_append]
      have : (("" : String).data ++ u.data ++ ['\n']) = u.data ++ ['\n'] := by
        simp
      rw [this, pySplit_append_sep, pySplit_no_sep '\n' u.data hnl]
      simp
    · rw [hg]
      have : (g ++ ['\n']) ++ u.data ++ ['\n'] = (g ++ '\n' :: u.data) ++ ['\n'] := by
        simp
      rw [this, pySplit_append_sep, pySplit_append_sep_free '\n' g u.data hnl]
      simp
  unfold Cache.load_urls
  apply List.mem_map.mpr
  refine ⟨u.data, List.mem_filter.mpr ⟨hlines, ?_⟩, ?_⟩
  · have hstrip : pyStripL u.data = u.data := pyStripL_id u.data hu.2.1
    have hne : u.data ≠ [] := by
      intro h0
      exact hu.1 (by rw [← mk_data u, h0])
    rw [hstrip]
    have h1 : (u.data).isEmpty = false := by
      cases hd : u.data
      · exact absurd hd hne
      · rfl
    have h2 : startsHash u.data = false := by
      cases hsh : startsHash u.data
      · rfl
      · exact absurd hsh (by simpa using hu.2.2)
    simp [h1, h2]
  · rw [pyStripL_id u.data hu.2.1]

/-- C4 (amended).  For an identifier not yet present in the cache state,
calling `Cache.add` twice appends exactly one line (the identifier plus
newline) in total, the first call returning true and the second false; the
second call changes neither the backing file nor the in-memory set.  For an
identifier already present, `Cache.add` is a complete no-op returning false
(so a first call on an already-present identifier does not return true and
appends nothing, contrary to the unrestricted claim). -/
theorem C4_cache_add_twice :
    (∀ (s : CacheState) (u : String), u ∉ s.urls →
      (Cache.add s u).1 = true ∧
      (Cache.add s u).2.file = s.file ++ u ++ "\n" ∧
      (Cache.add (Cache.add s u).2 u).1 = false ∧
      (Cache.add (Cache.add s u).2 u).2 = (Cache.add s u).2) ∧
    (∀ (s : CacheState) (u : String), u ∈ s.urls →
      Cache.add s u = (false, s)) := by
  constructor
  · intro s u hu
    have h1 : Cache.add s u
        = (true, { file := s.file ++ u ++ "\n", urls := u :: s.urls }) := by
      unfold Cache.add
      rw [if_neg hu]
    have h2 : Cache.add ({ file := s.file ++ u ++ "\n", urls := u :: s.urls } : CacheState) u
        = (false, { file := s.file ++ u ++ "\n", urls := u :: s.urls }) := by
      unfold Cache.add
      rw [if_pos (by simp)]
    refine ⟨by rw [h1], by rw [h1], ?_, ?_⟩
    · rw [h1, h2]
    · rw [h1, h2]
  · intro s u hu
    unfold Cache.add
    rw [if_pos hu]

/-- C4 witness: a fresh cache state and identifier satisfying the
hypothesis, with both return values evaluated. -/
theorem C4_cache_add_twice_witness :
    (Cache.add ⟨HEADER, []⟩ ("https://a/b")).1 = true ∧
    (Cache.add (Cache.add ⟨HEADER, []⟩ ("https://a/b")).2 ("https://a/b")).1 = false :=
  ⟨(C4_cache_add_twice.1 ⟨HEADER, []⟩ ("https://a/b") (by simp)).1,
   (C4_cache_add_twice.1 ⟨HEADER, []⟩ ("https://a/b") (by simp)).2.2.1⟩

/-- C4 counterexample.  Against a prior cache state whose backing file (and
hence loaded set) already holds the identifier — exactly the state a restart
produces — the first of the two `Cache.add` calls returns false, not true,
and the two calls together append zero lines, not one. -/
theorem C4_cache_add_twice_counterexample :
    (Cache.add
      ⟨HEADER ++ "https://a/b" ++ "\n",
        Cache.load_urls (HEADER ++ "https://a/b" ++ "\n")⟩
      ("https://a/b")).1 = false ∧
    (Cache.add
      (Cache.add
        ⟨HEADER ++ "https://a/b" ++ "\n",
          Cache.load_urls (HEADER ++ "https://a/b" ++ "\n")⟩
        ("https://a/b")).2
      ("https://a/b")).2.file = HEADER ++ "https://a/b" ++ "\n" := by
  constructor
  · rfl
  · rfl

/-- C5.  Inside a single `Cache.add` of a not-yet-present identifier, the
durable file append strictly precedes the in-memory insert: the middle
intermediate state has the identifier on disk but not in memory, no
intermediate state has it in memory without it being on disk, a crash after
the append is recovered by the next startup's load, and a crash before the
append leaves the identifier absent from both the file and the set. -/
theorem C5_add_write_before_insert :
    ∀ (s : CacheState) (u : String), GoodId u → GoodFile s.file →
      (∀ x, x ∈ s.urls ↔ x ∈ Cache.load_urls s.file) → u ∉ s.urls →
      Cache.addTrace s u =
        [s, { s with file := s.file ++ u ++ "\n" },
         { file := s.file ++ u ++ "\n", urls := u :: s.urls }] ∧
      u ∈ Cache.load_urls (s.file ++ u ++ "\n") ∧
      u ∉ ({ s with file := s.file ++ u ++ "\n" } : CacheState).urls ∧
      u ∉ Cache.load_urls s.file ∧ u ∉ s.urls ∧
      (∀ t ∈ Cache.addTrace s u, u ∈ t.urls → u ∈ Cache.load_urls t.file) := by
  intro s u hu hf hsync hmem
  have htrace : Cache.addTrace s u =
      [s, { s with file := s.file ++ u ++ "\n" },
       { file := s.file ++ u ++ "\n", urls := u :: s.urls }] := by
    unfold Cache.addTrace
    rw [if_neg hmem]
  have hrec : u ∈ Cache.load_urls (s.file ++ u ++ "\n") :=
    mem_load_urls_append s.file u hu hf
  refine ⟨htrace, hrec, hmem, ?_, hmem, ?_⟩
  · intro hl
    exact hmem ((hsync u).mpr hl)
  · intro t ht hut
    rw [htrace] at ht
    rcases List.mem_cons.mp ht with rfl | ht2
    · exact absurd hut hmem
    rcases List.mem_cons.mp ht2 with rfl | ht3
    · exact absurd (by simpa using hut) hmem
    rcases List.mem_cons.mp ht3 with rfl | ht4
    · simpa using hrec
    · simp at ht4

/-- C5 witness: the theorem applied to a concrete well-formed state and
identifier; the recovery conclusion is evaluated. -/
theorem C5_add_write_before_insert_witness :
    GoodId ("https://a/b") ∧
    ("https://a/b" : String) ∈ Cache.load_urls ("# x\n" ++ "https://a/b" ++ "\n") :=
  ⟨by decide,
   (C5_add_write_before_insert ⟨"# x\n", []⟩ ("https://a/b") (by decide)
      (Or.inr ⟨("# x").data, rfl⟩)
      (fun x => Iff.rfl)
      (by simp)).2.1⟩

/-! ## Lemmas and theorems about the discovery engine -/

theorem mem_insertAll (s l : List String) (x : String) :
    x ∈ insertAll s l ↔ x ∈ s ∨ x ∈ l := by
  induction l generalizing s with
  | nil => simp [insertAll]
  | cons a t ih =>
    unfold insertAll
    simp only [List.foldl_cons]
    by_cases ha : a ∈ s
    · rw [if_pos ha]
      rw [show List.foldl (fun s u => if u ∈ s then s else u :: s) s t = insertAll s t
          from rfl, ih]
      constructor
      · rintro (h | h)
        · exact Or.inl h
        · exact Or.inr (List.mem_cons_of_mem a h)
      · rintro (h | h)
        · exact Or.inl h
        · rcases List.mem_cons.mp h with h3 | h3
          · exact Or.inl (by rw [h3]; exact ha)
          · exact Or.inr h3
    · rw [if_neg ha]
      rw [show List.foldl (fun s u => if u ∈ s then s else u :: s) (a :: s) t
          = insertAll (a :: s) t from rfl, ih]
      constructor
      · rintro (h | h)
        · rcases List.mem_cons.mp h with h3 | h3
          · exact Or.inr (by rw [h3]; exact List.mem_cons_self a t)
          · exact Or.inl h3
        · exact Or.inr (List.mem_cons_of_mem a h)
      · rintro (h | h)
        · exact Or.inl (List.mem_cons_of_mem a h)
        · rcases List.mem_cons.mp h with h3 | h3
          · exact Or.inl (by rw [h3]; exact List.mem_cons_self a s)
          · exact Or.inr h3

theorem length_insertAll (s l : List String) (hnd : l.Nodup)
    (hdisj : ∀ u ∈ l, u ∉ s) :
    (insertAll s l).length = s.length + l.length := by
  induction l generalizing s with
  | nil => simp [insertAll]
  | cons a t ih =>
    unfold insertAll
    simp only [List.foldl_cons]
    rw [if_neg (hdisj a (List.mem_cons_self a t))]
    rw [show List.foldl (fun s u => if u ∈ s then s else u :: s) (a :: s) t
        = insertAll (a :: s) t from rfl]
    rw [ih (a :: s) (List.nodup_cons.mp hnd).2 (fun u hu => by
      intro hc
      rcases List.mem_cons.mp hc with rfl | h2
      · exact (List.nodup_cons.mp hnd).1 hu
      · exact hdisj u (List.mem_cons_of_mem a hu) h2)]
    simp only [List.length_cons]
    omega

/-- The structural unfolding of one scroll-loop iteration. -/
theorem scrapeLoop_succ (render : Nat → List String) (target fuel attempt : Nat)
    (seen : List String) (fails : Nat) :
    VideoLinkScraper.scrapeLoop render target (fuel + 1) attempt seen fails =
      (if VideoLinkScraper.should_stop_scrolling
          (insertAll seen (VideoLinkScraper.extract_new_video_urls seen (render attempt))).length
          target fails then
        (VideoLinkScraper.extract_new_video_urls seen (render attempt),
         [(VideoLinkScraper.extract_new_video_urls seen (render attempt)).length],
         some ((insertAll seen
            (VideoLinkScraper.extract_new_video_urls seen (render attempt))).length, fails))
      else
        (VideoLinkScraper.extract_new_video_urls seen (render attempt) ++
            (VideoLinkScraper.scrapeLoop render target fuel (attempt + 1)
              (insertAll seen (VideoLinkScraper.extract_new_video_urls seen (render attempt)))
              (if (VideoLinkScraper.extract_new_video_urls seen (render attempt)).isEmpty
                then fails + 1 else 0)).1,
         (VideoLinkScraper.extract_new_video_urls seen (render attempt)).length ::
            (VideoLinkScraper.scrapeLoop render target fuel (attempt + 1)
              (insertAll seen (VideoLinkScraper.extract_new_video_urls seen (render attempt)))
              (if (VideoLinkScraper.extract_new_video_urls seen (render attempt)).isEmpty
                then fails + 1 else 0)).2.1,
         (VideoLinkScraper.scrapeLoop render target fuel (attempt + 1)
            (insertAll seen (VideoLinkScraper.extract_new_video_urls seen (render attempt)))
            (if (VideoLinkScraper.extract_new_video_urls seen (render attempt)).isEmpty
              then fails + 1 else 0)).2.2)) := rfl

theorem should_stop_false (n target fails : Nat)
    (h1 : ¬ (0 < target ∧ target ≤ n)) (h2 : fails < MAX_FAIL_ATTEMPTS) :
    VideoLinkScraper.should_stop_scrolling n target fails = false := by
  unfold VideoLinkScraper.should_stop_scrolling
  simp only [Bool.or_eq_false_iff, Bool.and_eq_false_iff, decide_eq_false_iff_not]
  constructor
  · by_cases ht : 0 < target
    · exact Or.inr (fun hc => h1 ⟨ht, hc⟩)
    · exact Or.inl ht
  · omega

theorem should_stop_true_stagnation (n target fails : Nat)
    (h : MAX_FAIL_ATTEMPTS ≤ fails) :
    VideoLinkScraper.should_stop_scrolling n target fails = true := by
  unfold VideoLinkScraper.should_stop_scrolling
  simp [h]

theorem should_stop_true_target (n target fails : Nat)
    (h1 : 0 < target) (h2 : target ≤ n) :
    VideoLinkScraper.should_stop_scrolling n target fails = true := by
  unfold VideoLinkScraper.should_stop_scrolling
  simp [h1, h2]

/-- Once a seen set absorbs everything the listing ever renders, each further
iteration yields nothing; the loop then runs exactly until the stop check
sees the failure counter at `MAX_FAIL_ATTEMPTS`, that is for
`MAX_FAIL_ATTEMPTS + 1 - fails` further scroll attempts. -/
theorem scrapeLoop_stagnation (render : Nat → List String) (target : Nat)
    (seen : List String)
    (hext : ∀ t, VideoLinkScraper.extract_new_video_urls seen (render t) = [])
    (htgt : ¬ (0 < target ∧ target ≤ seen.length)) :
    ∀ fuel fails attempt, fails ≤ MAX_FAIL_ATTEMPTS →
      MAX_FAIL_ATTEMPTS + 1 - fails ≤ fuel →
      VideoLinkScraper.scrapeLoop render target fuel attempt seen fails =
        ([], List.replicate (MAX_FAIL_ATTEMPTS + 1 - fails) 0,
         some (seen.length, MAX_FAIL_ATTEMPTS)) := by
  intro fuel
  induction fuel with
  | zero =>
    intro fails attempt h1 h2
    exfalso
    unfold MAX_FAIL_ATTEMPTS at h1 h2
    omega
  | succ n ih =>
    intro fails attempt h1 h2
    rw [scrapeLoop_succ, hext attempt]
    rw [show insertAll seen [] = seen from rfl]
    by_cases hfin : fails = MAX_FAIL_ATTEMPTS
    · rw [hfin, if_pos (should_stop_true_stagnation _ _ _ (le_refl _))]
      rw [show MAX_FAIL_ATTEMPTS + 1 - MAX_FAIL_ATTEMPTS = 1 from by omega]
      rfl
    · rw [if_neg (by
        rw [should_stop_false seen.length target fails htgt (by omega)]
        decide)]
      rw [show ([] : List String).isEmpty = true from rfl, if_pos rfl]
      rw [ih (fails + 1) (attempt + 1) (by omega) (by omega)]
      simp only [List.nil_append, List.length_nil]
      rw [show MAX_FAIL_ATTEMPTS + 1 - fails = (MAX_FAIL_ATTEMPTS + 1 - (fails + 1)) + 1
          from by omega]
      rw [List.replicate_succ]

/-- A listing whose non-empty hrefs are all fresh relative to an empty seen
set emits them all on the first read. -/
theorem extract_first_read (L : List String) (hne : ∀ h ∈ L, h ≠ "") :
    VideoLinkScraper.extract_new_video_urls [] L = L.map normalizeHref := by
  unfold VideoLinkScraper.extract_new_video_urls
  have h1 : L.filter (fun h => !decide (h = "")) = L :=
    List.filter_eq_self.mpr (fun a ha => by simp [hne a ha])
  rw [h1]
  apply List.filter_eq_self.mpr
  intro a ha
  simp

/-! ## Theorems for claims C9, C2 and C6 -/

/-- C9.  Against a listing that renders n distinct items (n at least one)
with advisory total n, the engine emits TotalFound n before any UrlFound,
then exactly the n UrlFound events in rendered order, and stops through the
target-reached rule on the very first scroll attempt — far short of
`MAX_SCROLL_ATTEMPTS` — with the stagnation counter still at zero. -/
theorem C9_target_reached (L : List String)
    (hlen : 1 ≤ L.length) (hne : ∀ h ∈ L, h ≠ "")
    (hnd : (L.map normalizeHref).Nodup) :
    VideoLinkScraper.scrape_urls (fun _ => L) L.length =
      (ScrapeEvent.totalFound L.length ::
        (L.map normalizeHref).map ScrapeEvent.urlFound,
       [L.length], some (L.length, 0)) ∧
    0 < L.length ∧ L.length ≤ L.length ∧ ¬ (MAX_FAIL_ATTEMPTS ≤ 0) ∧
    1 < MAX_SCROLL_ATTEMPTS := by
  have hins : (insertAll [] (L.map normalizeHref)).length = L.length := by
    rw [length_insertAll [] (L.map normalizeHref) hnd (by simp)]
    simp
  have hmain : VideoLinkScraper.scrapeLoop (fun _ => L) L.length
      MAX_SCROLL_ATTEMPTS 1 [] 0 =
      (L.map normalizeHref, [L.length], some (L.length, 0)) := by
    rw [show MAX_SCROLL_ATTEMPTS = 49 + 1 from rfl, scrapeLoop_succ]
    rw [extract_first_read L hne, hins,
      if_pos (should_stop_true_target L.length L.length 0 (by omega) (le_refl _))]
    rw [List.length_map]
  refine ⟨?_, by omega, le_refl _, by decide, by decide⟩
  unfold VideoLinkScraper.scrape_urls
  rw [hmain]

/-- C9 witness: the theorem applied to the concrete five-item listing of the
specification's test. -/
theorem C9_target_reached_witness :
    VideoLinkScraper.scrape_urls (fun _ => sampleHrefs5) sampleHrefs5.length =
      (ScrapeEvent.totalFound sampleHrefs5.length ::
        (sampleHrefs5.map normalizeHref).map ScrapeEvent.urlFound,
       [sampleHrefs5.length], some (sampleHrefs5.length, 0)) :=
  (C9_target_reached sampleHrefs5 (by decide) (by decide) (by decide)).1

/-- C2 (amended).  With a listing that renders 12 distinct items and never
changes, and advisory total 20, the engine emits TotalFound 20 and the 12
UrlFound events, and then performs exactly 11 further no-new-item scroll
attempts before terminating (12 attempts in all): the stop check reads the
consecutive-failure counter before it is updated for the current iteration,
so it fires on the iteration after the counter reaches
`MAX_FAIL_ATTEMPTS = 10`, and the counter it saw is 10. -/
theorem C2_stagnation_stop (L : List String)
    (hlen : L.length = 12) (hne : ∀ h ∈ L, h ≠ "")
    (hnd : (L.map normalizeHref).Nodup) :
    VideoLinkScraper.scrape_urls (fun _ => L) 20 =
      (ScrapeEvent.totalFound 20 ::
        (L.map normalizeHref).map ScrapeEvent.urlFound,
       12 :: List.replicate 11 0, some (12, 10)) := by
  have hins : (insertAll [] (L.map normalizeHref)).length = 12 := by
    rw [length_insertAll [] (L.map normalizeHref) hnd (by simp)]
    simp [hlen]
  have hstag := scrapeLoop_stagnation (fun _ => L) 20
      (insertAll [] (L.map normalizeHref))
      (by
        intro t
        unfold VideoLinkScraper.extract_new_video_urls
        apply List.filter_eq_nil_iff.mpr
        intro a ha
        simp only [Bool.not_eq_true', decide_eq_false_iff_not, Decidable.not_not]
        exact (mem_insertAll _ _ a).mpr (Or.inr (by
          rcases List.mem_map.mp ha with ⟨h0, hh0, hnorm⟩
          exact List.mem_map.mpr ⟨h0, List.mem_filter.mp hh0 |>.1, hnorm⟩)))
      (by rw [hins]; omega)
      49 0 2 (by decide) (by rw [show MAX_FAIL_ATTEMPTS + 1 - 0 = 11 from rfl]; omega)
  have hmain : VideoLinkScraper.scrapeLoop (fun _ => L) 20
      MAX_SCROLL_ATTEMPTS 1 [] 0 =
      (L.map normalizeHref, 12 :: List.replicate 11 0, some (12, 10)) := by
    rw [show MAX_SCROLL_ATTEMPTS = 49 + 1 from rfl, scrapeLoop_succ]
    rw [extract_first_read L hne, hins]
    rw [if_neg (by
      rw [should_stop_false 12 20 0 (by omega) (by decide)]
      decide)]
    rw [show (L.map normalizeHref).isEmpty = false from by
      cases hmap : L.map normalizeHref
      · exfalso
        have := congrArg List.length hmap
        simp [hlen] at this
      · rfl]
    simp only [Bool.false_eq_true, if_false]
    rw [show (1 + 1 : Nat) = 2 from rfl, hstag]
    rw [show MAX_FAIL_ATTEMPTS + 1 - 0 = 11 from rfl, hins]
    simp [hlen, MAX_FAIL_ATTEMPTS]
  unfold VideoLinkScraper.scrape_urls
  rw [hmain]

/-- C2 witness: the theorem applied to the concrete twelve-item listing. -/
theorem C2_stagnation_stop_witness :
    VideoLinkScraper.scrape_urls (fun _ => sampleHrefs12) 20 =
      (ScrapeEvent.totalFound 20 ::
        (sampleHrefs12.map normalizeHref).map ScrapeEvent.urlFound,
       12 :: List.replicate 11 0, some (12, 10)) :=
  C2_stagnation_stop sampleHrefs12 (by decide) (by decide) (by decide)

/-- C2 counterexample.  In the claimed scenario (12 unique items, advisory
total 20) the engine performs 11 no-new-item scroll attempts before
terminating, not 10: the per-attempt new-item counts contain eleven zeroes. -/
theorem C2_stagnation_stop_counterexample :
    ((VideoLinkScraper.scrape_urls (fun _ => sampleHrefs12) 20).2.1.count 0 = 11) ∧
    (11 : Nat) ≠ 10 := by
  refine ⟨?_, by decide⟩
  rfl

theorem filterMap_urlOf_map (l : List String) :
    (l.map ScrapeEvent.urlFound).filterMap ScrapeEvent.urlOf = l := by
  induction l with
  | nil => rfl
  | cons a t ih => simp [ScrapeEvent.urlOf, ih]

/-- Every url the scroll loop emits is fresh: emitted urls are pairwise
distinct and none was already in the seen set — provided each single read,
after dropping falsy hrefs and normalizing, contains no duplicates. -/
theorem scrapeLoop_nodup (render : Nat → List String) (target : Nat)
    (hr : ∀ t, (((render t).filter (fun h => !decide (h = ""))).map normalizeHref).Nodup) :
    ∀ fuel attempt seen fails,
      (VideoLinkScraper.scrapeLoop render target fuel attempt seen fails).1.Nodup ∧
      ∀ u ∈ (VideoLinkScraper.scrapeLoop render target fuel attempt seen fails).1,
        u ∉ seen := by
  intro fuel
  induction fuel with
  | zero =>
    intro attempt seen fails
    exact ⟨List.nodup_nil, by intro u hu; simp [VideoLinkScraper.scrapeLoop] at hu⟩
  | succ n ih =>
    intro attempt seen fails
    rw [scrapeLoop_succ]
    have hnew_nd : (VideoLinkScraper.extract_new_video_urls seen (render attempt)).Nodup :=
      List.Nodup.filter _ (hr attempt)
    have hnew_not :
        ∀ u ∈ VideoLinkScraper.extract_new_video_urls seen (render attempt), u ∉ seen := by
      intro u hu
      have h2 := (List.mem_filter.mp hu).2
      simpa using h2
    split
    · exact ⟨hnew_nd, hnew_not⟩
    · obtain ⟨ihn, ihs⟩ := ih (attempt + 1)
        (insertAll seen (VideoLinkScraper.extract_new_video_urls seen (render attempt)))
        (if (VideoLinkScraper.extract_new_video_urls seen (render attempt)).isEmpty
          then fails + 1 else 0)
      refine ⟨List.Nodup.append hnew_nd ihn ?_, ?_⟩
      · intro u hu1 hu2
        exact ihs u hu2 ((mem_insertAll _ _ u).mpr (Or.inr hu1))
      · intro u hu
        rcases List.mem_append.mp hu with h | h
        · exact hnew_not u h
        · intro hc
          exact ihs u h ((mem_insertAll _ _ u).mpr (Or.inl hc))

/-- C6 (amended).  In every run of `scrape_urls`, each identifier appears in
at most one UrlFound event — each read emits only the subset of rendered
links not yet seen and the seen set absorbs every emitted identifier —
PROVIDED each single read's rendered links, after dropping falsy hrefs and
normalizing, are pairwise distinct.  When the same href (or two hrefs with
the same normalization) occurs twice within one read, the seen set is not
consulted between the two occurrences and the identifier is emitted twice. -/
theorem C6_unique_urls (render : Nat → List String) (target : Nat)
    (hr : ∀ t, (((render t).filter (fun h => !decide (h = ""))).map normalizeHref).Nodup) :
    ((VideoLinkScraper.scrape_urls render target).1.filterMap ScrapeEvent.urlOf).Nodup := by
  rw [show (VideoLinkScraper.scrape_urls render target).1
      = ScrapeEvent.totalFound target ::
        (VideoLinkScraper.scrapeLoop render target
          MAX_SCROLL_ATTEMPTS 1 [] 0).1.map ScrapeEvent.urlFound
      from rfl]
  rw [List.filterMap_cons]
  simp only [ScrapeEvent.urlOf]
  rw [filterMap_urlOf_map]
  exact (scrapeLoop_nodup render target hr MAX_SCROLL_ATTEMPTS 1 [] 0).1

/-- C6 witness: a duplicate-free listing, with the uniqueness conclusion. -/
theorem C6_unique_urls_witness :
    ((VideoLinkScraper.scrape_urls (fun _ => ["a", "b"]) 2).1.filterMap
      ScrapeEvent.urlOf).Nodup :=
  C6_unique_urls (fun _ => ["a", "b"]) 2 (fun _ =>
    show (((["a", "b"] : List String).filter
      (fun h => !decide (h = ""))).map normalizeHref).Nodup from by decide)

/-- C6 counterexample.  A single read rendering the same href twice produces
two UrlFound events carrying the same identifier, refuting the claim that
uniqueness holds even for reads repeating an href. -/
theorem C6_unique_urls_counterexample :
    ((VideoLinkScraper.scrape_urls (fun _ => ["x", "x"]) 1).1.count
      (ScrapeEvent.urlFound (normalizeHref ("x"))) = 2) ∧ ¬ (2 ≤ (1 : Nat)) := by
  refine ⟨rfl, by decide⟩

/-! ## Lemmas about the pipeline -/

namespace Pipeline

theorem countP_set_add {α : Type} (p : α → Bool) (l : List α) (i : Nat) (w w' : α)
    (h : l[i]? = some w) :
    (l.set i w').countP p + (if p w then 1 else 0)
      = l.countP p + (if p w' then 1 else 0) := by
  induction l generalizing i with
  | nil => simp at h
  | cons a t ih =>
    cases i with
    | zero =>
      simp only [List.getElem?_cons_zero, Option.some.injEq] at h
      rw [h, List.set]
      simp only [List.countP_cons]
      omega
    | succ n =>
      simp only [List.getElem?_cons_succ] at h
      rw [List.set]
      simp only [List.countP_cons]
      have := ih n h
      omega

theorem mapSum_set_add {α : Type} (f : α → Nat) (l : List α) (i : Nat) (w w' : α)
    (h : l[i]? = some w) :
    ((l.set i w').map f).sum + f w = (l.map f).sum + f w' := by
  induction l generalizing i with
  | nil => simp at h
  | cons a t ih =>
    cases i with
    | zero =>
      simp only [List.getElem?_cons_zero, Option.some.injEq] at h
      rw [h, List.set]
      simp only [List.map_cons, List.sum_cons]
      omega
    | succ n =>
      simp only [List.getElem?_cons_succ] at h
      rw [List.set]
      simp only [List.map_cons, List.sum_cons]
      have := ih n h
      omega

theorem mem_of_set {α : Type} (l : List α) (i : Nat) (w' : α) (x : α)
    (hx : x ∈ l.set i w') : x = w' ∨ x ∈ l := by
  induction l generalizing i with
  | nil => simp [List.set] at hx
  | cons a t ih =>
    cases i with
    | zero =>
      rw [List.set] at hx
      rcases List.mem_cons.mp hx with h | h
      · exact Or.inl h
      · exact Or.inr (List.mem_cons_of_mem a h)
    | succ n =>
      rw [List.set] at hx
      rcases List.mem_cons.mp hx with h | h
      · exact Or.inr (by rw [h]; exact List.mem_cons_self a t)
      · rcases ih n h with h2 | h2
        · exact Or.inl h2
        · exact Or.inr (List.mem_cons_of_mem a h2)

/-- Each worker is in exactly one control point. -/
theorem worker_partition (ws : List Worker) :
    ws.countP Worker.isRunning + ws.countP Worker.isHolding
      + ws.countP Worker.isExiting + ws.countP Worker.isDone = ws.length := by
  induction ws with
  | nil => rfl
  | cons w t ih =>
    simp only [List.countP_cons, List.length_cons]
    cases hw : w.phase <;>
      simp [Worker.isRunning, Worker.isHolding, Worker.isExiting, Worker.isDone, hw] <;>
      omega

/-- Appending a sentinel to a sentinel-free queue keeps the sentinel-last
property. -/
theorem sentLast_append (q : List QItem) (h0 : q.countP QItem.isSent = 0) :
    ∀ pre post, q ++ [QItem.sentinel] = pre ++ QItem.sentinel :: post → post = [] := by
  intro pre post heq
  by_contra hpost
  have hlast : (q ++ [QItem.sentinel]).getLast? = some QItem.sentinel :=
    List.getLast?_concat q
  rw [heq] at hlast
  rw [show pre ++ QItem.sentinel :: post = (pre ++ [QItem.sentinel]) ++ post from by simp] at hlast
  rw [List.getLast?_append_of_ne_nil _ hpost] at hlast
  have hmem : QItem.sentinel ∈ post := by
    have := List.mem_getLast?_eq_getLast (l := post) (x := QItem.sentinel) (by simp [hlast])
    rcases this with ⟨hne, hx⟩
    rw [hx]
    exact List.getLast_mem hne
  have hcount : 0 < post.countP QItem.isSent :=
    List.countP_pos_iff.mpr ⟨QItem.sentinel, hmem, rfl⟩
  have hcounts := congrArg (List.countP QItem.isSent) heq
  simp only [List.countP_append, List.countP_cons] at hcounts
  simp [QItem.isSent] at hcounts
  omega

/-- What one `download_worker` call does to the stats: the found counter is
untouched and exactly one of completed, skipped, failed is incremented. -/
theorem processUrl_stats (env : Env) (cache : List String) (st : Stats) (u : String) :
    (processUrl env cache st u).stats.total = st.total ∧
    (processUrl env cache st u).stats.found = st.found ∧
    (processUrl env cache st u).stats.completed + (processUrl env cache st u).stats.skipped
        + (processUrl env cache st u).stats.failed
      = st.completed + st.skipped + st.failed + 1 := by
  unfold processUrl
  by_cases h1 : u ∈ cache
  · rw [if_pos h1]
    refine ⟨rfl, rfl, by simp; omega⟩
  · rw [if_neg h1]
    rcases hf : url_to_filename u with _ | fname
    · refine ⟨rfl, rfl, by simp; omega⟩
    · dsimp only
      by_cases h2 : env.fetchOk u
      · rw [if_pos h2]
        rcases hx : extract_video_source (env.pageOf u) with _ | media
        · refine ⟨rfl, rfl, by simp; omega⟩
        · dsimp only
          by_cases h3 : env.streamOk u
          · rw [if_pos h3]
            refine ⟨rfl, rfl, by simp; omega⟩
          · rw [if_neg h3]
            refine ⟨rfl, rfl, by simp; omega⟩
      · rw [if_neg h2]
        refine ⟨rfl, rfl, by simp; omega⟩

/-- The worker never removes cache entries. -/
theorem processUrl_cache_mono (env : Env) (cache : List String) (st : Stats)
    (u : String) (x : String) (hx : x ∈ cache) :
    x ∈ (processUrl env cache st u).cache := by
  unfold processUrl
  by_cases h1 : u ∈ cache
  · rw [if_pos h1]; exact hx
  · rw [if_neg h1]
    rcases hf : url_to_filename u with _ | fname
    · exact hx
    · dsimp only
      by_cases h2 : env.fetchOk u
      · rw [if_pos h2]
        rcases hx2 : extract_video_source (env.pageOf u) with _ | media
        · exact hx
        · dsimp only
          by_cases h3 : env.streamOk u
          · rw [if_pos h3]
            rw [if_neg h1]
            exact List.mem_cons_of_mem u hx
          · rw [if_neg h3]; exact hx
      · rw [if_neg h2]; exact hx

/-- Every network operation the worker issues is tagged with the processed
identifier. -/
theorem processUrl_ops_item (env : Env) (cache : List String) (st : Stats)
    (u : String) (op : NetOp) (hop : op ∈ (processUrl env cache st u).newOps) :
    NetOp.item op = u := by
  unfold processUrl at hop
  by_cases h1 : u ∈ cache
  · rw [if_pos h1] at hop; simp at hop
  · rw [if_neg h1] at hop
    rcases hf : url_to_filename u with _ | fname <;> rw [hf] at hop <;> dsimp only at hop
    · simp at hop
    · by_cases h2 : env.fetchOk u
      · rw [if_pos h2] at hop
        rcases hx2 : extract_video_source (env.pageOf u) with _ | media <;>
          rw [hx2] at hop <;> dsimp only at hop
        · simp at hop
          rw [hop]
          rfl
        · by_cases h3 : env.streamOk u
          · rw [if_pos h3] at hop
            simp at hop
            rcases hop with h | h <;> rw [h] <;> rfl
          · rw [if_neg h3] at hop
            simp at hop
            rcases hop with h | h <;> rw [h] <;> rfl
      · rw [if_neg h2] at hop
        simp at hop
        rw [hop]
        rfl

/-- C8's worker-level fact as an equation: a cached identifier is skipped
with no network operation, no file, and no state change beyond the counter. -/
theorem processUrl_cached (env : Env) (cache : List String) (st : Stats)
    (u : String) (hu : u ∈ cache) :
    processUrl env cache st u
      = ⟨cache, { st with skipped := st.skipped + 1 }, [], []⟩ := by
  unfold processUrl
  rw [if_pos hu]

theorem urlCount_cons_url (u : String) (q : List QItem) :
    urlCount (QItem.url u :: q) = urlCount q + 1 := by
  simp [urlCount, QItem.isUrl]

theorem urlCount_cons_sent (q : List QItem) :
    urlCount (QItem.sentinel :: q) = urlCount q := by
  simp [urlCount, QItem.isUrl]

theorem urlCount_append_url (q : List QItem) (u : String) :
    urlCount (q ++ [QItem.url u]) = urlCount q + 1 := by
  simp [urlCount, List.filter_append, QItem.isUrl]

theorem urlCount_append_sent (q : List QItem) :
    urlCount (q ++ [QItem.sentinel]) = urlCount q := by
  simp [urlCount, List.filter_append, QItem.isUrl]

/-- Every pipeline step strictly decreases the measure, so no execution —
under any interleaving of producer and workers — can run forever. -/
theorem measure_decreases (env : Env) (s s' : State) (h : Step env s s') :
    measure s' < measure s := by
  cases h with
  | pTotal n rest hp =>
    unfold measure
    dsimp only
    rw [hp]
    simp only [prodRemaining, List.map_cons, List.sum_cons]
    omega
  | pFound u rest hp =>
    unfold measure
    dsimp only
    rw [hp]
    simp only [prodRemaining, List.map_cons, List.sum_cons]
    omega
  | pPut u rest hp =>
    unfold measure
    dsimp only
    rw [hp, urlCount_append_url]
    simp only [prodRemaining]
    omega
  | pSent hp =>
    unfold measure
    dsimp only
    rw [hp, urlCount_append_sent]
    simp only [prodRemaining, List.map_nil, List.sum_nil]
    omega
  | wGet i w u q hw hph hq =>
    unfold measure
    dsimp only
    have hsum := mapSum_set_add workerWeight s.workers i w
      { w with phase := WPhase.holding u } hw
    have hw2 : workerWeight w = 2 := by simp [workerWeight, hph]
    have hw3 : workerWeight { w with phase := WPhase.holding u } = 3 := by
      simp [workerWeight]
    rw [hw2, hw3] at hsum
    rw [hq, urlCount_cons_url]
    omega
  | wProc i w u hw hph =>
    unfold measure
    dsimp only
    have hsum := mapSum_set_add workerWeight s.workers i w
      { w with phase := WPhase.running } hw
    have hw2 : workerWeight w = 3 := by simp [workerWeight, hph]
    have hw3 : workerWeight { w with phase := WPhase.running } = 2 := by
      simp [workerWeight]
    rw [hw2, hw3] at hsum
    omega
  | wSentGet i w q hw hph hq =>
    unfold measure
    dsimp only
    have hsum := mapSum_set_add workerWeight s.workers i w
      { w with phase := WPhase.exiting, seenSent := w.seenSent + 1 } hw
    have hw2 : workerWeight w = 2 := by simp [workerWeight, hph]
    have hw3 : workerWeight { w with phase := WPhase.exiting, seenSent := w.seenSent + 1 } = 1 := by
      simp [workerWeight]
    rw [hw2, hw3] at hsum
    rw [hq, urlCount_cons_sent]
    omega
  | wSentPut i w hw hph =>
    unfold measure
    dsimp only
    have hsum := mapSum_set_add workerWeight s.workers i w
      { w with phase := WPhase.done, rePuts := w.rePuts + 1 } hw
    have hw2 : workerWeight w = 1 := by simp [workerWeight, hph]
    have hw3 : workerWeight { w with phase := WPhase.done, rePuts := w.rePuts + 1 } = 0 := by
      simp [workerWeight]
    rw [hw2, hw3] at hsum
    rw [urlCount_append_sent]
    omega

/-- The invariant holds at the initial configuration. -/
theorem inv_init (env : Env) (events : List ScrapeEvent) (k : Nat) :
    Inv env events k (init env events k) := by
  have hcount : ∀ (p : Worker → Bool),
      (List.replicate k (⟨WPhase.running, 0, 0⟩ : Worker)).countP p
        = if p ⟨WPhase.running, 0, 0⟩ then k else 0 := by
    intro p
    induction k with
    | zero => simp
    | succ n ih =>
      rw [List.replicate_succ]
      rw [List.countP_cons, ih]
      by_cases hp : p ⟨WPhase.running, 0, 0⟩ <;> simp [hp]
  refine
    { wlen := by simp [init]
      unf := by simp [init, hcount, Worker.isHolding]
      acct := by simp [init]
      noSentEarly := ?_
      sentOne := ?_
      sentLast := ?_
      counters := ?_
      statsInv := by simp [init, hcount, Worker.isHolding, countedFlag]
      cacheMono := by intro u hu; exact hu
      opsNew := by intro op hop; simp [init] at hop
      lastExit := ?_
      allDone := ?_
      queueSrc := by intro u hu; simp [init] at hu
      holdSrc := ?_
      prodSrcE := ?_
      prodSrcC := by intro u l hp; simp [init] at hp
      cachedRun := by intro _; exact ⟨rfl, rfl, rfl⟩ }
  · intro _
    refine ⟨by simp [init], ?_, ?_⟩
    · simp [init, hcount, Worker.isExiting]
    · simp [init, hcount, Worker.isDone]
  · intro hp
    exact absurd hp (by simp [init])
  · intro pre post hq
    exfalso
    simp only [init] at hq
    exact List.cons_ne_nil QItem.sentinel post
      (List.append_eq_nil.mp hq.symm).2
  · intro w hw
    have hrep : w = ⟨WPhase.running, 0, 0⟩ := List.eq_of_mem_replicate hw
    rw [hrep]
    exact ⟨rfl, rfl⟩
  · intro hx hd
    exfalso
    have hx2 := hx
    simp [init, hcount, Worker.isExiting] at hx2
  · intro hd hk
    exfalso
    have hd2 := hd
    simp [init, hcount, Worker.isDone] at hd2
    omega
  · intro w hw u hu
    have hrep : w = ⟨WPhase.running, 0, 0⟩ := List.eq_of_mem_replicate hw
    rw [hrep] at hu
    exact absurd hu (by simp)
  · intro l hpl u hu
    have hl : events = l := by
      have h2 := hpl
      simp [init] at h2
      exact h2
    rw [← hl] at hu
    exact hu

theorem countP_set_ft {p : Worker → Bool} (ws : List Worker) (i : Nat) (w w' : Worker)
    (hw : ws[i]? = some w) (h1 : p w = false) (h2 : p w' = true) :
    (ws.set i w').countP p = ws.countP p + 1 := by
  have h := countP_set_add p ws i w w' hw
  rw [h1, h2] at h
  simpa using h

theorem countP_set_tf {p : Worker → Bool} (ws : List Worker) (i : Nat) (w w' : Worker)
    (hw : ws[i]? = some w) (h1 : p w = true) (h2 : p w' = false) :
    (ws.set i w').countP p + 1 = ws.countP p := by
  have h := countP_set_add p ws i w w' hw
  rw [h1, h2] at h
  simpa using h

theorem countP_set_keep {p : Worker → Bool} (ws : List Worker) (i : Nat) (w w' : Worker)
    (hw : ws[i]? = some w) (h : p w = p w') :
    (ws.set i w').countP p = ws.countP p := by
  have h2 := countP_set_add p ws i w w' hw
  rw [h] at h2
  omega

theorem eventUrls_cons_total (n : Nat) (rest : List ScrapeEvent) :
    eventUrls (ScrapeEvent.totalFound n :: rest) = eventUrls rest := rfl

theorem eventUrls_cons_url (u : String) (rest : List ScrapeEvent) :
    eventUrls (ScrapeEvent.urlFound u :: rest) = u :: eventUrls rest := rfl

/-- One-step preservation of the run invariant. -/
theorem inv_step (env : Env) (events : List ScrapeEvent) (k : Nat) (s s' : State)
    (hi : Inv env events k s) (h : Step env s s') : Inv env events k s' := by
  cases h with
  | pTotal n rest hp =>
    refine
      { wlen := hi.wlen
        unf := hi.unf
        acct := hi.acct
        noSentEarly := fun _ => hi.noSentEarly (by rw [hp]; intro hc; cases hc)
        sentOne := fun hc => absurd hc (by simp)
        sentLast := hi.sentLast
        counters := hi.counters
        statsInv := ?_
        cacheMono := hi.cacheMono
        opsNew := hi.opsNew
        lastExit := hi.lastExit
        allDone := hi.allDone
        queueSrc := hi.queueSrc
        holdSrc := hi.holdSrc
        prodSrcE := ?_
        prodSrcC := fun u l hc => absurd (show ProdPhase.emitting rest = ProdPhase.counted u l from hc) (by simp)
        cachedRun := hi.cachedRun }
    · have h0 := hi.statsInv
      rw [hp] at h0
      dsimp only [countedFlag] at h0 ⊢
      omega
    · intro l hl x hx
      have hl2 : ProdPhase.emitting rest = ProdPhase.emitting l := hl
      injection hl2 with h1
      rw [← h1] at hx
      exact hi.prodSrcE (ScrapeEvent.totalFound n :: rest) hp x
        (by rw [eventUrls_cons_total]; exact hx)
  | pFound u rest hp =>
    refine
      { wlen := hi.wlen
        unf := hi.unf
        acct := hi.acct
        noSentEarly := fun _ => hi.noSentEarly (by rw [hp]; intro hc; cases hc)
        sentOne := fun hc => absurd hc (by simp)
        sentLast := hi.sentLast
        counters := hi.counters
        statsInv := ?_
        cacheMono := hi.cacheMono
        opsNew := hi.opsNew
        lastExit := hi.lastExit
        allDone := hi.allDone
        queueSrc := hi.queueSrc
        holdSrc := hi.holdSrc
        prodSrcE := fun l hc => absurd (show ProdPhase.counted u rest = ProdPhase.emitting l from hc) (by simp)
        prodSrcC := ?_
        cachedRun := hi.cachedRun }
    · have h0 := hi.statsInv
      rw [hp] at h0
      dsimp only [countedFlag] at h0 ⊢
      omega
    · intro u' l hc
      have hc2 : ProdPhase.counted u rest = ProdPhase.counted u' l := hc
      injection hc2 with h1 h2
      constructor
      · rw [← h1]
        exact hi.prodSrcE (ScrapeEvent.urlFound u :: rest) hp u
          (by rw [eventUrls_cons_url]; exact List.mem_cons_self u _)
      · intro x hx
        rw [← h2] at hx
        exact hi.prodSrcE (ScrapeEvent.urlFound u :: rest) hp x
          (by rw [eventUrls_cons_url]; exact List.mem_cons_of_mem u hx)
  | pPut u rest hp =>
    have hsrc := hi.prodSrcC u rest hp
    have h0 := hi.noSentEarly (by rw [hp]; intro hc; cases hc)
    refine
      { wlen := hi.wlen
        unf := by
          have h1 := hi.unf
          dsimp only
          simp only [List.length_append, List.length_cons, List.length_nil]
          omega
        acct := by
          have h1 := hi.acct
          dsimp only
          omega
        noSentEarly := ?_
        sentOne := fun hc => absurd (show ProdPhase.emitting rest = ProdPhase.done from hc) (by simp)
        sentLast := ?_
        counters := hi.counters
        statsInv := ?_
        cacheMono := hi.cacheMono
        opsNew := hi.opsNew
        lastExit := ?_
        allDone := ?_
        queueSrc := ?_
        holdSrc := hi.holdSrc
        prodSrcE := ?_
        prodSrcC := fun u' l hc => absurd (show ProdPhase.emitting rest = ProdPhase.counted u' l from hc) (by simp)
        cachedRun := hi.cachedRun }
    · intro _
      refine ⟨?_, h0.2.1, h0.2.2⟩
      show (s.queue ++ [QItem.url u]).countP QItem.isSent = 0
      rw [List.countP_append]
      simp [QItem.isSent, h0.1]
    · intro pre post hq
      have hq2 : s.queue ++ [QItem.url u] = pre ++ QItem.sentinel :: post := hq
      exfalso
      have hmem : QItem.sentinel ∈ s.queue ++ [QItem.url u] := by
        rw [hq2]
        simp
      rcases List.mem_append.mp hmem with hm | hm
      · have := List.countP_eq_zero.mp h0.1 QItem.sentinel hm
        simp [QItem.isSent] at this
      · simp at hm
    · have h1 := hi.statsInv
      rw [hp] at h1
      dsimp only [countedFlag] at h1 ⊢
      rw [List.countP_append]
      simp [List.countP_cons, List.countP_nil, QItem.isUrl]
      omega
    · intro hx hd
      exfalso
      have hx2 : s.workers.countP Worker.isExiting = 1 := hx
      omega
    · intro hd hk
      exfalso
      have hd2 : s.workers.countP Worker.isDone = k := hd
      rw [h0.2.2] at hd2
      omega
    · intro x hx
      have hx2 : QItem.url x ∈ s.queue ++ [QItem.url u] := hx
      rcases List.mem_append.mp hx2 with hm | hm
      · exact hi.queueSrc x hm
      · simp at hm
        rw [hm]
        exact hsrc.1
    · intro l hl x hx
      have hl2 : ProdPhase.emitting rest = ProdPhase.emitting l := hl
      injection hl2 with h1
      rw [← h1] at hx
      exact hsrc.2 x hx
  | pSent hp =>
    have h0 := hi.noSentEarly (by rw [hp]; intro hc; cases hc)
    refine
      { wlen := hi.wlen
        unf := by
          have h1 := hi.unf
          dsimp only
          simp only [List.length_append, List.length_cons, List.length_nil]
          omega
        acct := by
          have h1 := hi.acct
          dsimp only
          omega
        noSentEarly := fun hc => absurd rfl hc
        sentOne := ?_
        sentLast := ?_
        counters := hi.counters
        statsInv := ?_
        cacheMono := hi.cacheMono
        opsNew := hi.opsNew
        lastExit := ?_
        allDone := ?_
        queueSrc := ?_
        holdSrc := hi.holdSrc
        prodSrcE := fun l hc => absurd (show ProdPhase.done = ProdPhase.emitting l from hc) (by simp)
        prodSrcC := fun u' l hc => absurd (show ProdPhase.done = ProdPhase.counted u' l from hc) (by simp)
        cachedRun := hi.cachedRun }
    · intro _
      show (s.queue ++ [QItem.sentinel]).countP QItem.isSent
          + s.workers.countP Worker.isExiting = 1
      rw [List.countP_append]
      simp [QItem.isSent, h0.1, h0.2.1]
    · intro pre post hq
      exact sentLast_append s.queue h0.1 pre post hq
    · have h1 := hi.statsInv
      rw [hp] at h1
      dsimp only [countedFlag] at h1 ⊢
      rw [List.countP_append]
      simp [List.countP_cons, List.countP_nil, QItem.isUrl]
      omega
    · intro hx hd
      exfalso
      have hx2 : s.workers.countP Worker.isExiting = 1 := hx
      omega
    · intro hd hk
      exfalso
      have hd2 : s.workers.countP Worker.isDone = k := hd
      rw [h0.2.2] at hd2
      omega
    · intro x hx
      have hx2 : QItem.url x ∈ s.queue ++ [QItem.sentinel] := hx
      rcases List.mem_append.mp hx2 with hm | hm
      · exact hi.queueSrc x hm
      · simp at hm
  | wGet i w u q hw hph hq =>
    have hmemw : w ∈ s.workers := List.getElem?_mem hw
    have hHold : (s.workers.set i { w with phase := WPhase.holding u }).countP Worker.isHolding
        = s.workers.countP Worker.isHolding + 1 :=
      countP_set_ft s.workers i w _ hw (by simp [Worker.isHolding, hph]) (by simp [Worker.isHolding])
    have hExit : (s.workers.set i { w with phase := WPhase.holding u }).countP Worker.isExiting
        = s.workers.countP Worker.isExiting :=
      countP_set_keep s.workers i w _ hw (by simp [Worker.isExiting, hph])
    have hDone : (s.workers.set i { w with phase := WPhase.holding u }).countP Worker.isDone
        = s.workers.countP Worker.isDone :=
      countP_set_keep s.workers i w _ hw (by simp [Worker.isDone, hph])
    refine
      { wlen := by dsimp only; rw [List.length_set]; exact hi.wlen
        unf := by
          have h1 := hi.unf
          rw [hq] at h1
          simp only [List.length_cons] at h1
          dsimp only
          rw [hHold]
          omega
        acct := hi.acct
        noSentEarly := ?_
        sentOne := ?_
        sentLast := ?_
        counters := ?_
        statsInv := ?_
        cacheMono := hi.cacheMono
        opsNew := hi.opsNew
        lastExit := ?_
        allDone := ?_
        queueSrc := ?_
        holdSrc := ?_
        prodSrcE := hi.prodSrcE
        prodSrcC := hi.prodSrcC
        cachedRun := hi.cachedRun }
    · intro hnd
      have h1 := hi.noSentEarly hnd
      refine ⟨?_, ?_, ?_⟩
      · show q.countP QItem.isSent = 0
        have h2 := h1.1
        rw [hq, List.countP_cons] at h2
        omega
      · show (s.workers.set i { w with phase := WPhase.holding u }).countP Worker.isExiting = 0
        rw [hExit]
        exact h1.2.1
      · show (s.workers.set i { w with phase := WPhase.holding u }).countP Worker.isDone = 0
        rw [hDone]
        exact h1.2.2
    · intro hpd
      have h1 := hi.sentOne hpd
      rw [hq] at h1
      show q.countP QItem.isSent
          + (s.workers.set i { w with phase := WPhase.holding u }).countP Worker.isExiting = 1
      rw [hExit]
      simp [List.countP_cons, QItem.isSent] at h1 ⊢
      omega
    · intro pre post hq2
      have hq3 : q = pre ++ QItem.sentinel :: post := hq2
      exact hi.sentLast (QItem.url u :: pre) post (by rw [hq, hq3]; rfl)
    · intro w'' hw''
      have hw''2 : w'' ∈ s.workers.set i { w with phase := WPhase.holding u } := hw''
      rcases mem_of_set _ _ _ _ hw''2 with h1 | h1
      · rw [h1]
        have hc := hi.counters w hmemw
        rw [hph] at hc
        simpa using hc
      · exact hi.counters w'' h1
    · have h1 := hi.statsInv
      rw [hq] at h1
      dsimp only
      rw [hHold]
      simp [List.countP_cons, QItem.isUrl] at h1 ⊢
      omega
    · intro hx hd
      exfalso
      have hx2 : (s.workers.set i { w with phase := WPhase.holding u }).countP Worker.isExiting = 1 := hx
      have hd2 : (s.workers.set i { w with phase := WPhase.holding u }).countP Worker.isDone + 1 = k := hd
      rw [hExit] at hx2
      rw [hDone] at hd2
      have hle := hi.lastExit hx2 hd2
      rw [hq] at hle
      cases hle.1
    · intro hd hk
      exfalso
      have hd2 : (s.workers.set i { w with phase := WPhase.holding u }).countP Worker.isDone = k := hd
      rw [hDone] at hd2
      have hlen := hi.wlen
      have hall : ∀ x ∈ s.workers, Worker.isDone x = true := by
        apply List.countP_eq_length.mp
        omega
      have := hall w hmemw
      simp [Worker.isDone, hph] at this
    · intro x hx
      have hx2 : QItem.url x ∈ q := hx
      apply hi.queueSrc
      rw [hq]
      exact List.mem_cons_of_mem _ hx2
    · intro w'' hw'' u' hu'
      have hw''2 : w'' ∈ s.workers.set i { w with phase := WPhase.holding u } := hw''
      rcases mem_of_set _ _ _ _ hw''2 with h1 | h1
      · rw [h1] at hu'
        simp only at hu'
        injection hu' with h2
        rw [← h2]
        apply hi.queueSrc
        rw [hq]
        exact List.mem_cons_self _ _
      · exact hi.holdSrc w'' h1 u' hu'
  | wProc i w u hw hph =>
    have hmemw : w ∈ s.workers := List.getElem?_mem hw
    have hHold : (s.workers.set i { w with phase := WPhase.running }).countP Worker.isHolding + 1
        = s.workers.countP Worker.isHolding :=
      countP_set_tf s.workers i w _ hw (by simp [Worker.isHolding, hph]) (by simp [Worker.isHolding])
    have hExit : (s.workers.set i { w with phase := WPhase.running }).countP Worker.isExiting
        = s.workers.countP Worker.isExiting :=
      countP_set_keep s.workers i w _ hw (by simp [Worker.isExiting, hph])
    have hDone : (s.workers.set i { w with phase := WPhase.running }).countP Worker.isDone
        = s.workers.countP Worker.isDone :=
      countP_set_keep s.workers i w _ hw (by simp [Worker.isDone, hph])
    have hstats := processUrl_stats env s.cache s.stats u
    have huev : u ∈ eventUrls events := hi.holdSrc w hmemw u hph
    have hholdpos : 1 ≤ s.workers.countP Worker.isHolding :=
      List.countP_pos_iff.mpr ⟨w, hmemw, by simp [Worker.isHolding, hph]⟩
    refine
      { wlen := by dsimp only; rw [List.length_set]; exact hi.wlen
        unf := by
          have h1 := hi.unf
          dsimp only
          rw [show (s.workers.set i { w with phase := WPhase.running }).countP Worker.isHolding
              = s.workers.countP Worker.isHolding - 1 from by omega]
          omega
        acct := by
          have h1 := hi.acct
          have h2 := hi.unf
          dsimp only
          omega
        noSentEarly := ?_
        sentOne := ?_
        sentLast := hi.sentLast
        counters := ?_
        statsInv := ?_
        cacheMono := ?_
        opsNew := ?_
        lastExit := ?_
        allDone := ?_
        queueSrc := hi.queueSrc
        holdSrc := ?_
        prodSrcE := hi.prodSrcE
        prodSrcC := hi.prodSrcC
        cachedRun := ?_ }
    · intro hnd
      have h1 := hi.noSentEarly hnd
      exact ⟨h1.1, by rw [show ((s.workers.set i { w with phase := WPhase.running }).countP Worker.isExiting) = s.workers.countP Worker.isExiting from hExit]; exact h1.2.1,
        by rw [show ((s.workers.set i { w with phase := WPhase.running }).countP Worker.isDone) = s.workers.countP Worker.isDone from hDone]; exact h1.2.2⟩
    · intro hpd
      show s.queue.countP QItem.isSent
          + (s.workers.set i { w with phase := WPhase.running }).countP Worker.isExiting = 1
      rw [hExit]
      exact hi.sentOne hpd
    · intro w'' hw''
      have hw''2 : w'' ∈ s.workers.set i { w with phase := WPhase.running } := hw''
      rcases mem_of_set _ _ _ _ hw''2 with h1 | h1
      · rw [h1]
        have hc := hi.counters w hmemw
        rw [hph] at hc
        simpa using hc
      · exact hi.counters w'' h1
    · have h1 := hi.statsInv
      dsimp only
      rw [hstats.2.1]
      have h3 := hstats.2.2
      dsimp only [countedFlag] at h1 ⊢
      omega
    · intro x hx
      exact processUrl_cache_mono env s.cache s.stats u x (hi.cacheMono x hx)
    · intro op hop
      have hop2 : op ∈ s.netOps ++ (processUrl env s.cache s.stats u).newOps := hop
      rcases List.mem_append.mp hop2 with hm | hm
      · exact hi.opsNew op hm
      · have hitem := processUrl_ops_item env s.cache s.stats u op hm
        rw [hitem]
        intro hc
        have hmemc : u ∈ s.cache := hi.cacheMono u hc
        rw [processUrl_cached env s.cache s.stats u hmemc] at hm
        simp at hm
    · intro hx hd
      have hx2 : (s.workers.set i { w with phase := WPhase.running }).countP Worker.isExiting = 1 := hx
      have hd2 : (s.workers.set i { w with phase := WPhase.running }).countP Worker.isDone + 1 = k := hd
      rw [hExit] at hx2
      rw [hDone] at hd2
      have hle := hi.lastExit hx2 hd2
      refine ⟨hle.1, ?_⟩
      show (s.joinFired || _) = true
      rw [hle.2]
      simp
    · intro hd hk
      exfalso
      have hd2 : (s.workers.set i { w with phase := WPhase.running }).countP Worker.isDone = k := hd
      rw [hDone] at hd2
      have hlen := hi.wlen
      have hall : ∀ x ∈ s.workers, Worker.isDone x = true := by
        apply List.countP_eq_length.mp
        omega
      have := hall w hmemw
      simp [Worker.isDone, hph] at this
    · intro w'' hw'' u' hu'
      have hw''2 : w'' ∈ s.workers.set i { w with phase := WPhase.running } := hw''
      rcases mem_of_set _ _ _ _ hw''2 with h1 | h1
      · rw [h1] at hu'
        simp at hu'
      · exact hi.holdSrc w'' h1 u' hu'
    · intro hall
      have h1 := hi.cachedRun hall
      have hc : u ∈ s.cache := hi.cacheMono u (hall u huev)
      refine ⟨?_, ?_, ?_⟩
      · show s.netOps ++ (processUrl env s.cache s.stats u).newOps = []
        rw [processUrl_cached env s.cache s.stats u hc, h1.1]
        rfl
      · show (processUrl env s.cache s.stats u).stats.completed = 0
        rw [processUrl_cached env s.cache s.stats u hc]
        exact h1.2.1
      · show (processUrl env s.cache s.stats u).stats.failed = 0
        rw [processUrl_cached env s.cache s.stats u hc]
        exact h1.2.2
  | wSentGet i w q hw hph hq =>
    have hmemw : w ∈ s.workers := List.getElem?_mem hw
    have hpd : s.prod = ProdPhase.done := by
      by_contra hnd
      have h1 := hi.noSentEarly hnd
      have h2 := h1.1
      rw [hq] at h2
      simp [QItem.isSent] at h2
    have hExit : (s.workers.set i { w with phase := WPhase.exiting, seenSent := w.seenSent + 1 }).countP Worker.isExiting
        = s.workers.countP Worker.isExiting + 1 :=
      countP_set_ft s.workers i w _ hw (by simp [Worker.isExiting, hph]) (by simp [Worker.isExiting])
    have hHold : (s.workers.set i { w with phase := WPhase.exiting, seenSent := w.seenSent + 1 }).countP Worker.isHolding
        = s.workers.countP Worker.isHolding :=
      countP_set_keep s.workers i w _ hw (by simp [Worker.isHolding, hph])
    have hDone : (s.workers.set i { w with phase := WPhase.exiting, seenSent := w.seenSent + 1 }).countP Worker.isDone
        = s.workers.countP Worker.isDone :=
      countP_set_keep s.workers i w _ hw (by simp [Worker.isDone, hph])
    have hone := hi.sentOne hpd
    have hq0 : q = [] := hi.sentLast [] q (by rw [hq]; rfl)
    refine
      { wlen := by dsimp only; rw [List.length_set]; exact hi.wlen
        unf := by
          have h1 := hi.unf
          rw [hq] at h1
          simp only [List.length_cons] at h1
          dsimp only
          rw [hHold]
          omega
        acct := by
          have h1 := hi.acct
          have h2 := hi.unf
          rw [hq] at h2
          simp only [List.length_cons] at h2
          dsimp only
          omega
        noSentEarly := fun hc => absurd hpd hc
        sentOne := ?_
        sentLast := ?_
        counters := ?_
        statsInv := ?_
        cacheMono := hi.cacheMono
        opsNew := hi.opsNew
        lastExit := ?_
        allDone := ?_
        queueSrc := ?_
        holdSrc := ?_
        prodSrcE := hi.prodSrcE
        prodSrcC := hi.prodSrcC
        cachedRun := hi.cachedRun }
    · intro _
      show q.countP QItem.isSent
          + (s.workers.set i { w with phase := WPhase.exiting, seenSent := w.seenSent + 1 }).countP Worker.isExiting = 1
      rw [hExit]
      have h2 := hone
      rw [hq] at h2
      simp [List.countP_cons, QItem.isSent] at h2 ⊢
      omega
    · intro pre post hq2
      have hq3 : q = pre ++ QItem.sentinel :: post := hq2
      exact hi.sentLast (QItem.sentinel :: pre) post (by rw [hq, hq3]; rfl)
    · intro w'' hw''
      have hw''2 : w'' ∈ s.workers.set i { w with phase := WPhase.exiting, seenSent := w.seenSent + 1 } := hw''
      rcases mem_of_set _ _ _ _ hw''2 with h1 | h1
      · rw [h1]
        have hc := hi.counters w hmemw
        rw [hph] at hc
        simp at hc
        simp [hc]
      · exact hi.counters w'' h1
    · have h1 := hi.statsInv
      rw [hq] at h1
      dsimp only
      rw [hHold]
      simp [List.countP_cons, QItem.isUrl] at h1 ⊢
      omega
    · intro hx hd
      have hx2 : (s.workers.set i { w with phase := WPhase.exiting, seenSent := w.seenSent + 1 }).countP Worker.isExiting = 1 := hx
      have hd2 : (s.workers.set i { w with phase := WPhase.exiting, seenSent := w.seenSent + 1 }).countP Worker.isDone + 1 = k := hd
      rw [hExit] at hx2
      rw [hDone] at hd2
      have hrun : 0 < s.workers.countP Worker.isRunning :=
        List.countP_pos_iff.mpr ⟨w, hmemw, by simp [Worker.isRunning, hph]⟩
      have hpart := worker_partition s.workers
      have hlen := hi.wlen
      have hhold0 : s.workers.countP Worker.isHolding = 0 := by omega
      have h2 := hi.unf
      rw [hq, hq0] at h2
      simp only [List.length_cons, List.length_nil] at h2
      rw [hhold0] at h2
      refine ⟨hq0, ?_⟩
      show (s.joinFired || (decide (s.prod = ProdPhase.done) && decide (s.unfinished - 1 = 0))) = true
      rw [hpd]
      have hu0 : s.unfinished - 1 = 0 := by omega
      rw [hu0]
      simp
    · intro hd hk
      exfalso
      have hd2 : (s.workers.set i { w with phase := WPhase.exiting, seenSent := w.seenSent + 1 }).countP Worker.isDone = k := hd
      rw [hDone] at hd2
      have hlen := hi.wlen
      have hall : ∀ x ∈ s.workers, Worker.isDone x = true := by
        apply List.countP_eq_length.mp
        omega
      have := hall w hmemw
      simp [Worker.isDone, hph] at this
    · intro x hx
      have hx2 : QItem.url x ∈ q := hx
      apply hi.queueSrc
      rw [hq]
      exact List.mem_cons_of_mem _ hx2
    · intro w'' hw'' u' hu'
      have hw''2 : w'' ∈ s.workers.set i { w with phase := WPhase.exiting, seenSent := w.seenSent + 1 } := hw''
      rcases mem_of_set _ _ _ _ hw''2 with h1 | h1
      · rw [h1] at hu'
        simp at hu'
      · exact hi.holdSrc w'' h1 u' hu'
  | wSentPut i w hw hph =>
    have hmemw : w ∈ s.workers := List.getElem?_mem hw
    have hexpos : 0 < s.workers.countP Worker.isExiting :=
      List.countP_pos_iff.mpr ⟨w, hmemw, by simp [Worker.isExiting, hph]⟩
    have hpd : s.prod = ProdPhase.done := by
      by_contra hnd
      have h1 := hi.noSentEarly hnd
      omega
    have hone := hi.sentOne hpd
    have hsent0 : s.queue.countP QItem.isSent = 0 := by omega
    have hExit : (s.workers.set i { w with phase := WPhase.done, rePuts := w.rePuts + 1 }).countP Worker.isExiting + 1
        = s.workers.countP Worker.isExiting :=
      countP_set_tf s.workers i w _ hw (by simp [Worker.isExiting, hph]) (by simp [Worker.isExiting])
    have hHold : (s.workers.set i { w with phase := WPhase.done, rePuts := w.rePuts + 1 }).countP Worker.isHolding
        = s.workers.countP Worker.isHolding :=
      countP_set_keep s.workers i w _ hw (by simp [Worker.isHolding, hph])
    have hDone : (s.workers.set i { w with phase := WPhase.done, rePuts := w.rePuts + 1 }).countP Worker.isDone
        = s.workers.countP Worker.isDone + 1 :=
      countP_set_ft s.workers i w _ hw (by simp [Worker.isDone, hph]) (by simp [Worker.isDone])
    refine
      { wlen := by dsimp only; rw [List.length_set]; exact hi.wlen
        unf := by
          have h1 := hi.unf
          dsimp only
          simp only [List.length_append, List.length_cons, List.length_nil]
          rw [hHold]
          omega
        acct := by
          have h1 := hi.acct
          dsimp only
          omega
        noSentEarly := fun hc => absurd hpd hc
        sentOne := ?_
        sentLast := ?_
        counters := ?_
        statsInv := ?_
        cacheMono := hi.cacheMono
        opsNew := hi.opsNew
        lastExit := ?_
        allDone := ?_
        queueSrc := ?_
        holdSrc := ?_
        prodSrcE := hi.prodSrcE
        prodSrcC := hi.prodSrcC
        cachedRun := hi.cachedRun }
    · intro _
      show (s.queue ++ [QItem.sentinel]).countP QItem.isSent
          + (s.workers.set i { w with phase := WPhase.done, rePuts := w.rePuts + 1 }).countP Worker.isExiting = 1
      rw [List.countP_append]
      simp [List.countP_cons, List.countP_nil, QItem.isSent]
      omega
    · intro pre post hq2
      exact sentLast_append s.queue hsent0 pre post hq2
    · intro w'' hw''
      have hw''2 : w'' ∈ s.workers.set i { w with phase := WPhase.done, rePuts := w.rePuts + 1 } := hw''
      rcases mem_of_set _ _ _ _ hw''2 with h1 | h1
      · rw [h1]
        have hc := hi.counters w hmemw
        rw [hph] at hc
        simp at hc
        simp [hc]
      · exact hi.counters w'' h1
    · have h1 := hi.statsInv
      dsimp only
      rw [hHold, List.countP_append]
      simp [List.countP_cons, List.countP_nil, QItem.isUrl]
      omega
    · intro hx hd
      exfalso
      have hx2 : (s.workers.set i { w with phase := WPhase.done, rePuts := w.rePuts + 1 }).countP Worker.isExiting = 1 := hx
      omega
    · intro hd hk
      have hd2 : (s.workers.set i { w with phase := WPhase.done, rePuts := w.rePuts + 1 }).countP Worker.isDone = k := hd
      rw [hDone] at hd2
      have hle := hi.lastExit (by omega) (by omega)
      constructor
      · show s.queue ++ [QItem.sentinel] = [QItem.sentinel]
        rw [hle.1]
        rfl
      · exact hle.2
    · intro x hx
      have hx2 : QItem.url x ∈ s.queue ++ [QItem.sentinel] := hx
      rcases List.mem_append.mp hx2 with hm | hm
      · exact hi.queueSrc x hm
      · simp at hm
    · intro w'' hw'' u' hu'
      have hw''2 : w'' ∈ s.workers.set i { w with phase := WPhase.done, rePuts := w.rePuts + 1 } := hw''
      rcases mem_of_set _ _ _ _ hw''2 with h1 | h1
      · rw [h1] at hu'
        simp at hu'
      · exact hi.holdSrc w'' h1 u' hu'

/-- Every reachable configuration satisfies the invariant. -/
theorem reachable_inv (env : Env) (events : List ScrapeEvent) (k : Nat) (s : State)
    (hr : Reachable env events k s) : Inv env events k s := by
  unfold Reachable at hr
  induction hr with
  | refl => exact inv_init env events k
  | tail hab hbc ih => exact inv_step env events k _ _ ih hbc

/-- A reachable configuration from which no step is possible is the terminal
shape of a run: producer done, every worker done having observed and
re-enqueued the sentinel exactly once, the queue holding exactly the last
sentinel re-enqueue, the join event fired, and exactly one enqueue — that
final sentinel re-enqueue — never acknowledged. -/
theorem stuck_shape (env : Env) (events : List ScrapeEvent) (k : Nat) (s : State)
    (hk : 1 ≤ k) (hr : Reachable env events k s) (hs : Stuck env s) :
    s.prod = ProdPhase.done ∧
    (∀ w ∈ s.workers, w.phase = WPhase.done ∧ w.seenSent = 1 ∧ w.rePuts = 1) ∧
    s.queue = [QItem.sentinel] ∧ s.joinFired = true ∧
    s.puts = s.dones + 1 ∧ s.unfinished = 1 := by
  have hi := reachable_inv env events k s hr
  have hpd : s.prod = ProdPhase.done := by
    rcases hp : s.prod with l | ⟨u, l⟩ | _
    · rcases l with _ | ⟨e, rest⟩
      · exact absurd (Step.pSent s hp) (hs _)
      · cases e with
        | totalFound n => exact absurd (Step.pTotal s n rest hp) (hs _)
        | urlFound u => exact absurd (Step.pFound s u rest hp) (hs _)
    · exact absurd (Step.pPut s u l hp) (hs _)
    · rfl
  have hwdone : ∀ w ∈ s.workers, w.phase = WPhase.done := by
    intro w hw
    obtain ⟨i, hi2⟩ := List.getElem?_of_mem hw
    rcases hph : w.phase with _ | u | _ | _
    · exfalso
      have hone := hi.sentOne hpd
      have hsentpos : 0 < s.queue.countP QItem.isSent := by
        by_cases hex : s.workers.countP Worker.isExiting = 0
        · omega
        · exfalso
          obtain ⟨w2, hw2, hpw2⟩ := List.countP_pos_iff.mp (Nat.pos_of_ne_zero hex)
          obtain ⟨j, hj⟩ := List.getElem?_of_mem hw2
          have hph2 : w2.phase = WPhase.exiting := by
            simpa [Worker.isExiting] using hpw2
          exact hs _ (Step.wSentPut s j w2 hj hph2)
      rcases hqe : s.queue with _ | ⟨item, rest⟩
      · rw [hqe] at hsentpos
        simp at hsentpos
      · rcases item with u2 | _
        · exact hs _ (Step.wGet s i w u2 rest hi2 hph hqe)
        · exact hs _ (Step.wSentGet s i w rest hi2 hph hqe)
    · exact absurd (Step.wProc s i w u hi2 hph) (hs _)
    · exact absurd (Step.wSentPut s i w hi2 hph) (hs _)
    · rfl
  have hdcount : s.workers.countP Worker.isDone = k := by
    rw [← hi.wlen]
    exact List.countP_eq_length.mpr (fun a ha => by simp [Worker.isDone, hwdone a ha])
  have hfin := hi.allDone hdcount hk
  have hhold0 : s.workers.countP Worker.isHolding = 0 :=
    List.countP_eq_zero.mpr (fun a ha => by simp [Worker.isHolding, hwdone a ha])
  have hunf := hi.unf
  rw [hfin.1] at hunf
  simp only [List.length_cons, List.length_nil] at hunf
  rw [hhold0] at hunf
  have hacct := hi.acct
  refine ⟨hpd, ?_, hfin.1, hfin.2, by omega, by omega⟩
  intro w hw
  have hc := hi.counters w hw
  rw [hwdone w hw] at hc
  exact ⟨hwdone w hw, by simpa using hc.1, by simpa using hc.2⟩

/-- A configuration with producer done, all workers done and only the
sentinel queued admits no step at all. -/
theorem stuck_of_final (env : Env) (s : State)
    (hprod : s.prod = ProdPhase.done)
    (hws : ∀ w ∈ s.workers, w.phase = WPhase.done) :
    Stuck env s := by
  intro s' h
  cases h with
  | pTotal n rest hp => rw [hprod] at hp; simp at hp
  | pFound u rest hp => rw [hprod] at hp; simp at hp
  | pPut u rest hp => rw [hprod] at hp; simp at hp
  | pSent hp => rw [hprod] at hp; simp at hp
  | wGet i w u q hw hph hqe =>
    have hd := hws w (List.getElem?_mem hw)
    rw [hd] at hph
    simp at hph
  | wProc i w u hw hph =>
    have hd := hws w (List.getElem?_mem hw)
    rw [hd] at hph
    simp at hph
  | wSentGet i w q hw hph hqe =>
    have hd := hws w (List.getElem?_mem hw)
    rw [hd] at hph
    simp at hph
  | wSentPut i w hw hph =>
    have hd := hws w (List.getElem?_mem hw)
    rw [hd] at hph
    simp at hph

/-- The two-worker no-url run executed to its terminal configuration. -/
theorem reach_finalNoUrls : Reachable envTrivial [] 2 finalNoUrls := by
  show Relation.ReflTransGen _ _ _
  refine Relation.ReflTransGen.head (Step.pSent _ rfl) ?_
  refine Relation.ReflTransGen.head
    (Step.wSentGet _ 0 ⟨WPhase.running, 0, 0⟩ [] rfl rfl rfl) ?_
  refine Relation.ReflTransGen.head
    (Step.wSentPut _ 0 ⟨WPhase.exiting, 1, 0⟩ rfl rfl) ?_
  refine Relation.ReflTransGen.head
    (Step.wSentGet _ 1 ⟨WPhase.running, 0, 0⟩ [] rfl rfl rfl) ?_
  refine Relation.ReflTransGen.head
    (Step.wSentPut _ 1 ⟨WPhase.exiting, 1, 0⟩ rfl rfl) ?_
  exact Relation.ReflTransGen.refl

theorem finalNoUrls_stuck : Stuck envTrivial finalNoUrls :=
  stuck_of_final envTrivial finalNoUrls rfl (by decide)

/-- The one-worker one-url run against the failing network, executed to its
terminal configuration. -/
theorem reach_finalOneFail : Reachable envTrivial eventsOne 1 finalOneFail := by
  show Relation.ReflTransGen _ _ _
  refine Relation.ReflTransGen.head (Step.pFound _ ("https://a/b") [] rfl) ?_
  refine Relation.ReflTransGen.head (Step.pPut _ ("https://a/b") [] rfl) ?_
  refine Relation.ReflTransGen.head (Step.pSent _ rfl) ?_
  refine Relation.ReflTransGen.head
    (Step.wGet _ 0 ⟨WPhase.running, 0, 0⟩ ("https://a/b") [QItem.sentinel] rfl rfl rfl) ?_
  refine Relation.ReflTransGen.head
    (Step.wProc _ 0 ⟨WPhase.holding ("https://a/b"), 0, 0⟩ ("https://a/b") rfl rfl) ?_
  refine Relation.ReflTransGen.head
    (Step.wSentGet _ 0 ⟨WPhase.running, 0, 0⟩ [] rfl rfl rfl) ?_
  refine Relation.ReflTransGen.head
    (Step.wSentPut _ 0 ⟨WPhase.exiting, 1, 0⟩ rfl rfl) ?_
  exact Relation.ReflTransGen.refl

/-- The one-worker one-url run against the pre-populated cache, executed to
its terminal configuration. -/
theorem reach_finalOneSkip : Reachable envCached eventsOne 1 finalOneSkip := by
  show Relation.ReflTransGen _ _ _
  refine Relation.ReflTransGen.head (Step.pFound _ ("https://a/b") [] rfl) ?_
  refine Relation.ReflTransGen.head (Step.pPut _ ("https://a/b") [] rfl) ?_
  refine Relation.ReflTransGen.head (Step.pSent _ rfl) ?_
  refine Relation.ReflTransGen.head
    (Step.wGet _ 0 ⟨WPhase.running, 0, 0⟩ ("https://a/b") [QItem.sentinel] rfl rfl rfl) ?_
  refine Relation.ReflTransGen.head
    (Step.wProc _ 0 ⟨WPhase.holding ("https://a/b"), 0, 0⟩ ("https://a/b") rfl rfl) ?_
  refine Relation.ReflTransGen.head
    (Step.wSentGet _ 0 ⟨WPhase.running, 0, 0⟩ [] rfl rfl rfl) ?_
  refine Relation.ReflTransGen.head
    (Step.wSentPut _ 0 ⟨WPhase.exiting, 1, 0⟩ rfl rfl) ?_
  exact Relation.ReflTransGen.refl

end Pipeline

/-! ## Theorems for claims C1, C3, C7 and C8 -/

/-- C1 (amended).  Every pipeline step strictly decreases a Nat measure, so
no execution runs forever under any interleaving; and every completed
(stuck) reachable run has: producer done, all workers exited after each
observed the sentinel exactly once and re-enqueued it exactly once, the
queue holding exactly the final sentinel re-enqueue, and the join event
fired — queue.join is released by the transient zero of the unfinished
count at the last worker's task_done.  However, not every enqueued item is
acknowledged as processed: the final sentinel re-enqueue never is, so the
terminal put count exceeds the task_done count by one and the terminal
unfinished count is one, not zero. -/
theorem C1_shutdown (env : Pipeline.Env) (events : List ScrapeEvent) (k : Nat)
    (hk : 2 ≤ k) :
    (∀ s s', Pipeline.Step env s s' → Pipeline.measure s' < Pipeline.measure s) ∧
    (∀ s, Pipeline.Reachable env events k s → Pipeline.Stuck env s →
      s.prod = Pipeline.ProdPhase.done ∧
      (∀ w ∈ s.workers, w.phase = Pipeline.WPhase.done ∧ w.seenSent = 1 ∧ w.rePuts = 1) ∧
      s.queue = [Pipeline.QItem.sentinel] ∧ s.joinFired = true ∧
      s.puts = s.dones + 1 ∧ s.unfinished = 1) :=
  ⟨fun s s' h => Pipeline.measure_decreases env s s' h,
   fun s hr hs => Pipeline.stuck_shape env events k s (by omega) hr hs⟩

/-- C1 witness: the concrete two-worker run, with the terminal shape
evaluated. -/
theorem C1_shutdown_witness :
    Pipeline.Reachable Pipeline.envTrivial [] 2 Pipeline.finalNoUrls ∧
    Pipeline.Stuck Pipeline.envTrivial Pipeline.finalNoUrls ∧
    (Pipeline.finalNoUrls.prod = Pipeline.ProdPhase.done ∧
      (∀ w ∈ Pipeline.finalNoUrls.workers,
        w.phase = Pipeline.WPhase.done ∧ w.seenSent = 1 ∧ w.rePuts = 1) ∧
      Pipeline.finalNoUrls.queue = [Pipeline.QItem.sentinel] ∧
      Pipeline.finalNoUrls.joinFired = true ∧
      Pipeline.finalNoUrls.puts = Pipeline.finalNoUrls.dones + 1 ∧
      Pipeline.finalNoUrls.unfinished = 1) :=
  ⟨Pipeline.reach_finalNoUrls, Pipeline.finalNoUrls_stuck,
   (C1_shutdown Pipeline.envTrivial [] 2 (by decide)).2 Pipeline.finalNoUrls
     Pipeline.reach_finalNoUrls Pipeline.finalNoUrls_stuck⟩

/-- C1 counterexample.  A completed run (reachable and stuck) in which one
enqueued item is never acknowledged as processed: the producer and the two
workers enqueued three times in total but task_done was called only twice,
and the terminal unfinished count is one — refuting the claim that every
enqueued item, including every sentinel enqueue, is acknowledged. -/
theorem C1_shutdown_counterexample :
    Pipeline.Reachable Pipeline.envTrivial [] 2 Pipeline.finalNoUrls ∧
    Pipeline.Stuck Pipeline.envTrivial Pipeline.finalNoUrls ∧
    Pipeline.finalNoUrls.puts = 3 ∧ Pipeline.finalNoUrls.dones = 2 ∧
    ¬ (Pipeline.finalNoUrls.dones = Pipeline.finalNoUrls.puts) ∧
    ¬ (Pipeline.finalNoUrls.unfinished = 0) :=
  ⟨Pipeline.reach_finalNoUrls, Pipeline.finalNoUrls_stuck, rfl, rfl,
   by decide, by decide⟩

/-- C3.  In every reachable configuration the stats ledger satisfies
found at least completed plus skipped plus failed (each identifier is
counted found before it is enqueued, and each processed identifier adds
exactly one of the three); once the pipeline has drained (producer done,
all workers exited), equality holds. -/
theorem C3_stats_invariant (env : Pipeline.Env) (events : List ScrapeEvent)
    (k : Nat) (hk : 1 ≤ k) (s : Pipeline.State)
    (hr : Pipeline.Reachable env events k s) :
    s.stats.completed + s.stats.skipped + s.stats.failed ≤ s.stats.found ∧
    (s.prod = Pipeline.ProdPhase.done →
      (∀ w ∈ s.workers, w.phase = Pipeline.WPhase.done) →
      s.stats.found = s.stats.completed + s.stats.skipped + s.stats.failed) := by
  have hi := Pipeline.reachable_inv env events k s hr
  constructor
  · have h1 := hi.statsInv
    omega
  · intro hpd hwd
    have hdcount : s.workers.countP Pipeline.Worker.isDone = k := by
      rw [← hi.wlen]
      exact List.countP_eq_length.mpr
        (fun a ha => by simp [Pipeline.Worker.isDone, hwd a ha])
    have hfin := hi.allDone hdcount hk
    have hhold0 : s.workers.countP Pipeline.Worker.isHolding = 0 :=
      List.countP_eq_zero.mpr
        (fun a ha => by simp [Pipeline.Worker.isHolding, hwd a ha])
    have h1 := hi.statsInv
    rw [hfin.1, hpd, hhold0] at h1
    dsimp only [Pipeline.countedFlag] at h1
    simp [Pipeline.QItem.isUrl] at h1
    omega

/-- C3 witness: the one-worker one-url failing run, drained, with equality
evaluated (found one, failed one). -/
theorem C3_stats_invariant_witness :
    Pipeline.finalOneFail.stats.completed + Pipeline.finalOneFail.stats.skipped
        + Pipeline.finalOneFail.stats.failed ≤ Pipeline.finalOneFail.stats.found ∧
    Pipeline.finalOneFail.stats.found
      = Pipeline.finalOneFail.stats.completed + Pipeline.finalOneFail.stats.skipped
        + Pipeline.finalOneFail.stats.failed :=
  ⟨(C3_stats_invariant Pipeline.envTrivial Pipeline.eventsOne 1 (by decide)
      Pipeline.finalOneFail Pipeline.reach_finalOneFail).1,
   (C3_stats_invariant Pipeline.envTrivial Pipeline.eventsOne 1 (by decide)
      Pipeline.finalOneFail Pipeline.reach_finalOneFail).2 rfl (by decide)⟩

/-- A page with no qualifying 720p source tag makes the extractor raise. -/
theorem extract_none_of_no_qualifying (page : List Tag)
    (h : ∀ t ∈ page, ¬ Qualifying720 t) :
    extract_video_source page = none := by
  unfold extract_video_source
  rcases hf : page.find?
      (fun t => t.name == "source" && t.attr ("res") == some ("720")) with _ | t
  · rw [hf]
  · rw [hf]
    dsimp only
    have hmem := List.mem_of_find?_eq_some hf
    have hpred := List.find?_some hf
    simp only [Bool.and_eq_true, beq_iff_eq] at hpred
    have hnq := h t hmem
    rcases hsrc : t.attr ("src") with _ | sv
    · rfl
    · dsimp only
      by_cases hemp : sv = ""
      · rw [if_pos hemp]
      · exact absurd ⟨hpred.1, hpred.2, sv, hsrc, hemp⟩ hnq

/-- C7.  An item whose fetched page lacks a 720p source tag with a usable
src fails in isolation: the worker records exactly one failed increment,
creates no output file, adds no cache entry (so a future re-run retries
it), issues only the page fetch, and the step leaves the queue, the
producer and every sibling worker untouched — the processing worker simply
returns to its dequeue loop. -/
theorem C7_extraction_failure :
    (∀ (env : Pipeline.Env) (cache : List String) (st : Pipeline.Stats) (u : String),
      u ∉ cache → (url_to_filename u).isSome = true → env.fetchOk u = true →
      (∀ t ∈ env.pageOf u, ¬ Qualifying720 t) →
      Pipeline.processUrl env cache st u =
        ⟨cache, { st with failed := st.failed + 1 },
         [Pipeline.NetOp.pageFetch u], []⟩) ∧
    (∀ (env : Pipeline.Env) (s : Pipeline.State) (i : Nat) (w : Pipeline.Worker)
        (u : String),
      s.workers[i]? = some w → w.phase = Pipeline.WPhase.holding u →
      u ∉ s.cache → (url_to_filename u).isSome = true → env.fetchOk u = true →
      (∀ t ∈ env.pageOf u, ¬ Qualifying720 t) →
      ∃ s', Pipeline.Step env s s' ∧
        s'.stats = { s.stats with failed := s.stats.failed + 1 } ∧
        s'.cache = s.cache ∧
        s'.files = s.files ∧
        s'.netOps = s.netOps ++ [Pipeline.NetOp.pageFetch u] ∧
        s'.queue = s.queue ∧
        s'.prod = s.prod ∧
        s'.workers = s.workers.set i { w with phase := Pipeline.WPhase.running } ∧
        (∀ j, j ≠ i → s'.workers[j]? = s.workers[j]?)) := by
  have hbase : ∀ (env : Pipeline.Env) (cache : List String) (st : Pipeline.Stats)
      (u : String),
      u ∉ cache → (url_to_filename u).isSome = true → env.fetchOk u = true →
      (∀ t ∈ env.pageOf u, ¬ Qualifying720 t) →
      Pipeline.processUrl env cache st u =
        ⟨cache, { st with failed := st.failed + 1 },
         [Pipeline.NetOp.pageFetch u], []⟩ := by
    intro env cache st u h1 h2 h3 h4
    obtain ⟨fname, hf⟩ := Option.isSome_iff_exists.mp h2
    unfold Pipeline.processUrl
    rw [if_neg h1, hf]
    dsimp only
    rw [if_pos h3, extract_none_of_no_qualifying (env.pageOf u) h4]
  refine ⟨hbase, ?_⟩
  intro env s i w u hw hph h1 h2 h3 h4
  refine ⟨_, Pipeline.Step.wProc s i w u hw hph, ?_, ?_, ?_, ?_, rfl, rfl, rfl, ?_⟩
  · show (Pipeline.processUrl env s.cache s.stats u).stats = _
    rw [hbase env s.cache s.stats u h1 h2 h3 h4]
  · show (Pipeline.processUrl env s.cache s.stats u).cache = s.cache
    rw [hbase env s.cache s.stats u h1 h2 h3 h4]
  · show s.files ++ (Pipeline.processUrl env s.cache s.stats u).newFiles = s.files
    rw [hbase env s.cache s.stats u h1 h2 h3 h4]
    exact List.append_nil s.files
  · show s.netOps ++ (Pipeline.processUrl env s.cache s.stats u).newOps
        = s.netOps ++ [Pipeline.NetOp.pageFetch u]
    rw [hbase env s.cache s.stats u h1 h2 h3 h4]
  · intro j hj
    show (s.workers.set i { w with phase := Pipeline.WPhase.running })[j]? = s.workers[j]?
    exact List.getElem?_set_ne (Ne.symm hj)

/-- C7 witness: the base fact applied against the 480p-only page, with the
full result record evaluated. -/
theorem C7_extraction_failure_witness :
    Pipeline.processUrl Pipeline.env480 [] ⟨0, 0, 0, 0, 0⟩ ("https://a/b")
      = ⟨[], ⟨0, 0, 0, 0, 1⟩, [Pipeline.NetOp.pageFetch ("https://a/b")], []⟩ :=
  C7_extraction_failure.1 Pipeline.env480 [] ⟨0, 0, 0, 0, 0⟩ ("https://a/b")
    (by simp) (by decide) rfl (by decide)

/-- C8.  An identifier present in the cache when dequeued is processed with
no network operation at all and exactly one skipped increment; across a
whole run, no network operation is ever issued for an identifier in the
startup cache; and a run whose every discovered identifier is already
cached issues zero network operations, completes and fails nothing, and —
once drained — counts every found identifier as skipped. -/
theorem C8_dedup_skip :
    (∀ (env : Pipeline.Env) (cache : List String) (st : Pipeline.Stats) (u : String),
      u ∈ cache →
      Pipeline.processUrl env cache st u
        = ⟨cache, { st with skipped := st.skipped + 1 }, [], []⟩) ∧
    (∀ (env : Pipeline.Env) (events : List ScrapeEvent) (k : Nat)
        (s : Pipeline.State),
      Pipeline.Reachable env events k s →
      ∀ op ∈ s.netOps, Pipeline.NetOp.item op ∉ env.initCache) ∧
    (∀ (env : Pipeline.Env) (events : List ScrapeEvent) (k : Nat)
        (s : Pipeline.State),
      Pipeline.Reachable env events k s →
      (∀ u ∈ eventUrls events, u ∈ env.initCache) →
      s.netOps = [] ∧ s.stats.completed = 0 ∧ s.stats.failed = 0 ∧
      (1 ≤ k → s.prod = Pipeline.ProdPhase.done →
        (∀ w ∈ s.workers, w.phase = Pipeline.WPhase.done) →
        s.stats.skipped = s.stats.found)) := by
  refine ⟨fun env cache st u hu => Pipeline.processUrl_cached env cache st u hu, ?_, ?_⟩
  · intro env events k s hr op hop
    exact (Pipeline.reachable_inv env events k s hr).opsNew op hop
  · intro env events k s hr hall
    have hi := Pipeline.reachable_inv env events k s hr
    have h1 := hi.cachedRun hall
    refine ⟨h1.1, h1.2.1, h1.2.2, ?_⟩
    intro hk hpd hwd
    have heq := (C3_stats_invariant env events k hk s hr).2 hpd hwd
    omega

/-- C8 witness: the cached-identifier skip evaluated concretely, plus the
fully-cached one-worker run: no network operations and skipped equals
found at drain. -/
theorem C8_dedup_skip_witness :
    Pipeline.processUrl Pipeline.envCached ["https://a/b"] ⟨0, 1, 0, 0, 0⟩ ("https://a/b")
      = ⟨["https://a/b"], ⟨0, 1, 0, 1, 0⟩, [], []⟩ ∧
    Pipeline.finalOneSkip.netOps = [] ∧
    Pipeline.finalOneSkip.stats.skipped = Pipeline.finalOneSkip.stats.found :=
  ⟨C8_dedup_skip.1 Pipeline.envCached ["https://a/b"] ⟨0, 1, 0, 0, 0⟩ ("https://a/b")
     (by simp),
   (C8_dedup_skip.2.2 Pipeline.envCached Pipeline.eventsOne 1 Pipeline.finalOneSkip
     Pipeline.reach_finalOneSkip (by decide)).1,
   (C8_dedup_skip.2.2 Pipeline.envCached Pipeline.eventsOne 1 Pipeline.finalOneSkip
     Pipeline.reach_finalOneSkip (by decide)).2.2.2 (by decide) rfl (by decide)⟩

end PlaysTV
